import Mathlib

/-!
Shallow embedding of sdk/helper/storagepacker/ids2keys.go (the addressing and
ordering core of the vault storage packer V2), together with proofs of the
specification claims about it.

Modelling conventions:
- Go strings are modelled as lists of characters (`GoString`).  Every string
  operation used by this file treats the string byte for byte, and the byte
  order of valid UTF-8 agrees with the code-point order, so the list-of-chars
  view is faithful for length, slicing, equality and lexicographic comparison.
- Go slices that are sorted in place are modelled as functions from indices to
  elements; an in-place swap becomes the function `fswap`.  The index window
  a slice occupies is carried separately, exactly as the Go sort routines do.
- `sortRequests` calls Go's `sort.Slice`, which is the classic standard
  library sort: quicksort with median-of-three pivoting, a shell/insertion
  small-array path, and a heapsort depth fallback.  That algorithm (stdlib
  `sort.go` of the Go toolchains contemporary with this code, 1.8 through
  1.18) is embedded here function by function.  `sort.Slice` is documented as
  not guaranteed to be stable.
- Loops whose termination is not structural are given explicit fuel; every
  call site passes fuel that is provably sufficient, so the fuel-exhausted
  branches are unreachable and the definitions compute exactly the Go loops.
- Machine integers are modelled as `Nat`: every arithmetic operation below is
  on small non-negative quantities (indices, lengths, bit counts) where Go's
  `int` cannot overflow.
-/

/-- Go string, modelled as its sequence of characters. -/
abbrev GoString := List Char

/-- Comparison `s < t` on Go strings: lexicographic byte order (equivalently,
character order, since UTF-8 byte order agrees with code-point order). -/
def goStrLt : GoString → GoString → Bool
  | _, [] => false
  | [], _ :: _ => true
  | a :: s, b :: t => if a < b then true else if b < a then false else goStrLt s t

/-- Modelled from the spec: the `StoragePackerV2` record itself is not among
the sources under verification; per the spec (section 3, Configuration) the
only field this core reads is `BaseBucketBits`, a process-wide immutable
configuration value. -/
structure StoragePackerV2 where
  BaseBucketBits : Nat

/-- Modelled from the spec: the `Item` record is defined outside the sources
under verification; per the spec (section 3) it carries a string `ID` and an
opaque caller payload, modelled by an arbitrary type `π`. -/
structure Item (π : Type) where
  ID : GoString
  payload : π
  deriving DecidableEq

/-- The `itemRequest` record of ids2keys.go: client item ID, storage key
(hash of the ID), and the stored object (`*Item`, nil-able, hence `Option`). -/
structure ItemRequest (π : Type) where
  ID : GoString
  Key : GoString
  Value : Option (Item π)
  deriving DecidableEq

instance {π : Type} : Inhabited (ItemRequest π) := ⟨⟨[], [], none⟩⟩

/-- Hex digit characters `0123456789abcdef`, as used by Go's `%x` formatting
and by `encoding/hex` (lowercase). -/
def hexDigitList : List Char :=
  "0123456789abcdef".data

/-- Hex digit at value `n` (only used with `n < 16`). -/
def hexDigitChar (n : Nat) : Char := hexDigitList.getD n '0'

/-- Embedding of `hex.EncodeToString`: two lowercase hex characters per byte,
high nibble first.  Bytes are modelled as `Fin 256`. -/
def hexEncodeToString (bs : List (Fin 256)) : GoString :=
  bs.foldr (fun b acc => hexDigitChar (b.val / 16) :: hexDigitChar (b.val % 16) :: acc) []

/-- GetItemIDHash from ids2keys.go.  Modelled from the spec:
`cryptoutil.Blake2b256Hash` is not among the sources under verification; per
the spec (sections 6 and 9) it is an injected cryptographic digest primitive,
an arbitrary pure function from strings to a byte sequence, so it is a
parameter `blake` here. -/
def GetItemIDHash (blake : GoString → List (Fin 256)) (itemID : GoString) : GoString :=
  hexEncodeToString (blake itemID)

/-- keysForIDs from ids2keys.go: build one request per ID, in input order,
with the key computed by GetItemIDHash and no value. -/
def keysForIDs {π : Type} (blake : GoString → List (Fin 256)) (_s : StoragePackerV2)
    (ids : List GoString) : List (ItemRequest π) :=
  ids.map fun id => ⟨id, GetItemIDHash blake id, none⟩

/-- keysForItems from ids2keys.go: build one request per item, in input order,
with the key computed by GetItemIDHash and the item itself as value. -/
def keysForItems {π : Type} (blake : GoString → List (Fin 256)) (_s : StoragePackerV2)
    (items : List (Item π)) : List (ItemRequest π) :=
  items.map fun i => ⟨i.ID, GetItemIDHash blake i.ID, some i⟩

/-- Loop body of checkForDuplicateIds.  Go keeps `idsSeen` as a
`map[string]bool` used only for membership tests, modelled by the list of
ids already visited. -/
def checkLoop (idsSeen : List GoString) : List GoString → Bool × GoString
  | [] => (false, [])
  | id :: rest => if id ∈ idsSeen then (true, id) else checkLoop (id :: idsSeen) rest

/-- checkForDuplicateIds from ids2keys.go. -/
def checkForDuplicateIds (ids : List GoString) : Bool × GoString :=
  checkLoop [] ids

/-- Error message returned by firstKey. -/
def keyTooShortMsg : GoString := "Key too short.".data

/-- firstKey from ids2keys.go.  Go's `(string, error)` result is modelled as
the returned string paired with an optional error message. -/
def firstKey (s : StoragePackerV2) (cacheKey : GoString) : GoString × Option GoString :=
  let rootShardLength := s.BaseBucketBits / 4
  if cacheKey.length < rootShardLength then
    (cacheKey, some keyTooShortMsg)
  else
    (cacheKey.take (s.BaseBucketBits / 4), none)

/-- Fuel-structured lowercase hexadecimal rendering of `n` without padding, as
produced by Go's `%x` verb on a non-negative integer; fuel `n + 1` is always
sufficient, and `natToHex` below always supplies it. -/
def natToHexF : Nat → Nat → GoString
  | 0, _ => []
  | fuel + 1, n =>
    if n < 16 then [hexDigitChar n]
    else natToHexF fuel (n / 16) ++ [hexDigitChar (n % 16)]

/-- Lowercase hexadecimal rendering of `n`, no padding (`%x`). -/
def natToHex (n : Nat) : GoString := natToHexF (n + 1) n

/-- Embedding of `fmt.Sprintf` with the format string `%0wx` built by
getAllBaseBucketKeys: the hex rendering of `n`, left-padded with zeros to
width `w` (never truncated). -/
def sprintfHex (w : Nat) (n : Nat) : GoString :=
  List.replicate (w - (natToHex n).length) '0' ++ natToHex n

/-- getAllBaseBucketKeys from ids2keys.go.  `int(math.Pow(2.0, bits))` is
modelled by the exact value `2 ^ bits`: a float64 power of two is exact for
every exponent the conversion to `int` can represent. -/
def getAllBaseBucketKeys (s : StoragePackerV2) : List GoString :=
  (List.range (2 ^ s.BaseBucketBits)).map (sprintfHex (s.BaseBucketBits / 4))

/-- GetCacheKey's `strings.Replace(key, old, "", -1)` for the one-character
pattern `old`: every occurrence of `old` is removed, all other characters are
kept in order. -/
def goRemoveChar (old : Char) : GoString → GoString
  | [] => []
  | c :: rest => if c = old then goRemoveChar old rest else c :: goRemoveChar old rest

/-- GetCacheKey from ids2keys.go: `strings.Replace(key, "/", "", -1)`. -/
def GetCacheKey (_s : StoragePackerV2) (key : GoString) : GoString :=
  goRemoveChar '/' key

/-! The embedding of the Go standard library sort (`sort.Slice`), stdlib
`sort.go` as shipped with the Go toolchains 1.8 through 1.18.  The slice being
sorted is a function `f : Nat → α` over the index window `[a, b)`; `lt i j`
embeds the `less` closure `requests[i].Key < requests[j].Key`. -/

section GoSort

variable {α : Type}

/-- In-place swap of the elements at indices `i` and `j`. -/
def fswap (f : Nat → α) (i j : Nat) : Nat → α :=
  fun x => if x = i then f j else if x = j then f i else f x

variable (lt : α → α → Bool)

/-- Inner loop of stdlib insertionSort:
`for j := i; j > a && data.Less(j, j-1); j-- { data.Swap(j, j-1) }`. -/
def insertInner (a : Nat) : Nat → (Nat → α) → (Nat → α)
  | 0, f => f
  | j + 1, f =>
    if a < j + 1 ∧ lt (f (j + 1)) (f j) = true then insertInner a j (fswap f (j + 1) j)
    else f

/-- stdlib insertionSort on the window `[a, b)`:
`for i := a + 1; i < b; i++ { inner loop }`. -/
def insertionSortGo (f : Nat → α) (a b : Nat) : Nat → α :=
  (List.range' (a + 1) (b - (a + 1))).foldl (fun g i => insertInner lt a i g) f

/-- The shell sort pass with gap 6 that stdlib quickSort runs before
insertionSort on windows of at most 12 elements:
`for i := a + 6; i < b; i++ { if data.Less(i, i-6) { data.Swap(i, i-6) } }`. -/
def shellPassGo (f : Nat → α) (a b : Nat) : Nat → α :=
  (List.range' (a + 6) (b - (a + 6))).foldl
    (fun g i => if lt (g i) (g (i - 6)) = true then fswap g i (i - 6) else g) f

/-- stdlib siftDown on the heap occupying `[first, first+hi)`, rooted at
`root` (called `lo` in Go).  The loop advances `root` to a child each
iteration, so fuel `hi` is always sufficient. -/
def siftDownF : Nat → (Nat → α) → Nat → Nat → Nat → (Nat → α)
  | 0, f, _, _, _ => f
  | fuel + 1, f, root, hi, first =>
    let child := 2 * root + 1
    if hi ≤ child then f
    else
      let child :=
        if child + 1 < hi ∧ lt (f (first + child)) (f (first + child + 1)) = true then child + 1
        else child
      if lt (f (first + root)) (f (first + child)) = false then f
      else siftDownF fuel (fswap f (first + root) (first + child)) child hi first

/-- stdlib heapSort on the window `[a, b)`: build a max-heap, then repeatedly
swap the maximum to the end and sift down. -/
def heapSortGo (f : Nat → α) (a b : Nat) : Nat → α :=
  let first := a
  let hi := b - a
  let built := ((List.range ((hi - 1) / 2 + 1)).reverse).foldl
    (fun g i => siftDownF lt hi g i hi first) f
  ((List.range hi).reverse).foldl
    (fun g i => siftDownF lt hi (fswap g first (first + i)) 0 i first) built

/-- stdlib medianOfThree: sorts the three elements at `m1, m0, m2` so that
`data[m0] <= data[m1] <= data[m2]`. -/
def medianOfThreeGo (f : Nat → α) (m1 m0 m2 : Nat) : Nat → α :=
  let f1 := if lt (f m1) (f m0) = true then fswap f m1 m0 else f
  if lt (f1 m2) (f1 m1) = true then
    let f2 := fswap f1 m2 m1
    if lt (f2 m1) (f2 m0) = true then fswap f2 m1 m0 else f2
  else f1

/-- doPivot's opening scan `for ; a < c && data.Less(a, pivot); a++ {}`. -/
def scanLtF (pivot : Nat) : Nat → (Nat → α) → Nat → Nat → Nat
  | 0, _, a, _ => a
  | fuel + 1, f, a, c =>
    if a < c ∧ lt (f a) (f pivot) = true then scanLtF pivot fuel f (a + 1) c else a

/-- doPivot's scan `for ; b < c && !data.Less(pivot, b); b++ {}`. -/
def scanBF (pivot : Nat) : Nat → (Nat → α) → Nat → Nat → Nat
  | 0, _, b, _ => b
  | fuel + 1, f, b, c =>
    if b < c ∧ lt (f pivot) (f b) = false then scanBF pivot fuel f (b + 1) c else b

/-- doPivot's scan `for ; b < c && data.Less(pivot, c-1); c-- {}`. -/
def scanCF (pivot : Nat) : Nat → (Nat → α) → Nat → Nat → Nat
  | 0, _, _, c => c
  | fuel + 1, f, b, c =>
    if b < c ∧ lt (f pivot) (f (c - 1)) = true then scanCF pivot fuel f b (c - 1) else c

/-- doPivot's main partition loop.  Each iteration runs the two scans, stops
when the cursors meet, and otherwise swaps `b` with `c-1` and advances both
cursors, so fuel `c - b` (and a fortiori `hi`) is always sufficient. -/
def partLoopF (pivot : Nat) : Nat → (Nat → α) → Nat → Nat → (Nat → α) × Nat × Nat
  | 0, f, b, c => (f, b, c)
  | fuel + 1, f, b, c =>
    let b1 := scanBF lt pivot c f b c
    let c1 := scanCF lt pivot c f b1 c
    if c1 ≤ b1 then (f, b1, c1)
    else partLoopF pivot fuel (fswap f b1 (c1 - 1)) (b1 + 1) (c1 - 1)

/-- The scan `for ; a < b && !data.Less(b-1, pivot); b-- {}` of doPivot's
protect loop. -/
def scanPBF (pivot : Nat) : Nat → (Nat → α) → Nat → Nat → Nat
  | 0, _, _, b => b
  | fuel + 1, f, a, b =>
    if a < b ∧ lt (f (b - 1)) (f pivot) = false then scanPBF pivot fuel f a (b - 1) else b

/-- The scan `for ; a < b && data.Less(a, pivot); a++ {}` of doPivot's
protect loop. -/
def scanPAF (pivot : Nat) : Nat → (Nat → α) → Nat → Nat → Nat
  | 0, _, a, _ => a
  | fuel + 1, f, a, b =>
    if a < b ∧ lt (f a) (f pivot) = true then scanPAF pivot fuel f (a + 1) b else a

/-- doPivot's protect loop (run when many elements equal the pivot): move the
block of pivot-equal elements to sit left of `b`.  Each iteration shrinks
`b - a`, so fuel `b` is always sufficient. -/
def protectLoopF (pivot : Nat) : Nat → (Nat → α) → Nat → Nat → (Nat → α) × Nat × Nat
  | 0, f, a, b => (f, a, b)
  | fuel + 1, f, a, b =>
    let b1 := scanPBF lt pivot b f a b
    let a1 := scanPAF lt pivot b1 f a b1
    if b1 ≤ a1 then (f, a1, b1)
    else protectLoopF pivot fuel (fswap f a1 (b1 - 1)) (a1 + 1) (b1 - 1)

/-- Pivot-choice phase of stdlib doPivot: Tukey ninther over 40 elements,
then medianOfThree on `(lo, m, hi-1)`, leaving the chosen pivot at `lo`. -/
def doPivotChoose (f : Nat → α) (lo hi : Nat) : Nat → α :=
  let m := (lo + hi) / 2
  let f1 :=
    if hi - lo > 40 then
      let s := (hi - lo) / 8
      let fa := medianOfThreeGo lt f lo (lo + s) (lo + 2 * s)
      let fb := medianOfThreeGo lt fa m (m - s) (m + s)
      medianOfThreeGo lt fb (hi - 1) (hi - 1 - s) (hi - 1 - 2 * s)
    else f
  medianOfThreeGo lt f1 lo m (hi - 1)

/-- Duplicate heuristics of stdlib doPivot (pivot at `lo`): probe `hi-1`,
`b-1` and `m` for equality with the pivot, and decide whether to run the
protect loop. -/
def doPivotDups (f : Nat → α) (lo hi m b c : Nat) : ((Nat → α) × Nat × Nat) × Bool :=
  let protect0 := hi - c < 5
  if ¬ protect0 ∧ hi - c < (hi - lo) / 4 then
    let fc1 := if lt (f lo) (f (hi - 1)) = false then (fswap f c (hi - 1), c + 1, 1)
      else (f, c, 0)
    let f1 := fc1.1
    let c1 := fc1.2.1
    let dups1 := fc1.2.2
    let bd2 : Nat × Nat := if lt (f1 (b - 1)) (f1 lo) = false then (b - 1, dups1 + 1)
      else (b, dups1)
    let b2 := bd2.1
    let dups2 := bd2.2
    let fb3 := if lt (f1 m) (f1 lo) = false then (fswap f1 m (b2 - 1), b2 - 1, dups2 + 1)
      else (f1, b2, dups2)
    ((fb3.1, fb3.2.1, c1), fb3.2.2 > 1)
  else ((f, b, c), protect0)

/-- stdlib doPivot on the window `[lo, hi)`: choose a pivot, partition with
the two cursor scans, run the duplicate heuristics and (when indicated) the
protect loop, swap the pivot into place and return the new element function
together with `(midlo, midhi)`.  Only called with `hi - lo > 12`. -/
def doPivotGo (f : Nat → α) (lo hi : Nat) : (Nat → α) × Nat × Nat :=
  let m := (lo + hi) / 2
  let f0 := doPivotChoose lt f lo hi
  let pivot := lo
  let a := scanLtF lt pivot hi f0 (lo + 1) (hi - 1)
  let r := partLoopF lt pivot hi f0 a (hi - 1)
  let d := doPivotDups lt r.1 lo hi m r.2.1 r.2.2
  let pr := if d.2 then protectLoopF lt pivot d.1.2.1 d.1.1 a d.1.2.1
    else (d.1.1, a, d.1.2.1)
  (fswap pr.1 pivot (pr.2.2 - 1), pr.2.2 - 1, d.1.2.2)

/-- Go's maxDepth bit-length loop `for i := n; i > 0; i >>= 1 { depth++ }`,
fuel-structured; fuel `n` is always sufficient. -/
def bitLenF : Nat → Nat → Nat
  | 0, _ => 0
  | fuel + 1, n => if n = 0 then 0 else bitLenF fuel (n / 2) + 1

/-- stdlib maxDepth: 2 times the bit length of `n`, the recursion depth at
which quickSort switches to heapSort. -/
def maxDepthGo (n : Nat) : Nat := 2 * bitLenF n n

/-- stdlib quickSort on the window `[a, b)`.  The Go loop
`for b-a > 12 { ... }` recurses on the smaller half and iterates on the
larger; both become recursive calls here.  One unit of fuel is spent per loop
iteration; since every subwindow is strictly smaller than `b - a`, fuel
`b - a` is always sufficient, and `sortSliceGo` supplies the slice length. -/
def quickSortF : Nat → (Nat → α) → Nat → Nat → Nat → (Nat → α)
  | 0, f, a, b, _ =>
    if b - a > 12 then f
    else if b - a > 1 then insertionSortGo lt (shellPassGo lt f a b) a b
    else f
  | fuel + 1, f, a, b, maxd =>
    if b - a > 12 then
      if maxd = 0 then heapSortGo lt f a b
      else
        let r := doPivotGo lt f a b
        let f1 := r.1
        let mlo := r.2.1
        let mhi := r.2.2
        if mlo - a < b - mhi then
          quickSortF fuel (quickSortF fuel f1 a mlo (maxd - 1)) mhi b (maxd - 1)
        else
          quickSortF fuel (quickSortF fuel f1 mhi b (maxd - 1)) a mlo (maxd - 1)
    else if b - a > 1 then insertionSortGo lt (shellPassGo lt f a b) a b
    else f

/-- Embedding of `sort.Slice(slice, less)`:
`quickSort_func(lessSwap{less, swap}, 0, length, maxDepth(length))`, reading
the result back off as a list. -/
def sortSliceGo [Inhabited α] (l : List α) : List α :=
  let n := l.length
  let f0 : Nat → α := fun i => l.getD i default
  let ff := quickSortF lt n f0 0 n (maxDepthGo n)
  (List.range n).map ff

end GoSort

/-- The `less` closure passed by sortRequests to `sort.Slice`:
`duplicate[i].Key < duplicate[j].Key`. -/
def ltByKey {π : Type} (r1 r2 : ItemRequest π) : Bool := goStrLt r1.Key r2.Key

/-- sortRequests from ids2keys.go:
`duplicate := append([]*itemRequest{}, requests...)` copies the slice into a
freshly allocated backing array (append to an empty slice), and `sort.Slice`
then sorts that copy in place; the returned sequence is the sorted copy. -/
def sortRequests {π : Type} (requests : List (ItemRequest π)) : List (ItemRequest π) :=
  let duplicate := List.append [] requests
  sortSliceGo ltByKey duplicate

/-- Caller's view after a call to sortRequests: the pair of the original
slice and the returned one.  The Go copy into a fresh backing array means the
in-place sort touches only the duplicate, so the first component is the
original sequence, unchanged. -/
def sortRequestsRun {π : Type} (requests : List (ItemRequest π)) :
    List (ItemRequest π) × List (ItemRequest π) :=
  (requests, sortRequests requests)

/-- Numeric value of a lowercase hex digit character (16 for non-digits);
used only to state the numeric-order property of the bucket enumeration. -/
def hexCharVal (c : Char) : Nat := hexDigitList.indexOf c

/-- Numeric value encoded by a big-endian hex string; used only to state the
ascending-numeric-order property of the bucket enumeration. -/
def hexValue (s : GoString) : Nat := s.foldl (fun acc c => 16 * acc + hexCharVal c) 0

/-- Convenience constructor for concrete test requests (opaque payload
instantiated with `Unit`). -/
def mkReq (id key : String) : ItemRequest Unit := ⟨id.data, key.data, none⟩

/-- Concrete batch of eight requests whose positions 3 and 7 (IDs p3 and p7)
carry the equal key "b"; all other keys are distinct. -/
def exReqs : List (ItemRequest Unit) :=
  [mkReq "i0" "a", mkReq "i1" "c", mkReq "i2" "d", mkReq "p3" "b",
   mkReq "i4" "e", mkReq "i5" "f", mkReq "i6" "z", mkReq "p7" "b"]

/-- Asymmetry of a Boolean comparison (satisfied by `less` closures built
from a linear order, such as key comparison). -/
def LtAsymm {α : Type} (lt : α → α → Bool) : Prop :=
  ∀ x y, lt x y = true → lt y x = false

/-- Transitivity of the negation of a Boolean comparison (together with
asymmetry this makes `lt` a strict weak order, the precondition of the Go
sort). -/
def LtGeTrans {α : Type} (lt : α → α → Bool) : Prop :=
  ∀ x y z, lt x y = false → lt y z = false → lt x z = false

/-- Sortedness of the element function on the index window `[lo, hi)`: no
later element is strictly below an earlier one. -/
def SortedWin {α : Type} (lt : α → α → Bool) (lo hi : Nat) (f : Nat → α) : Prop :=
  ∀ i j, lo ≤ i → i < j → j < hi → lt (f j) (f i) = false

/-- The element function `g` is obtained from `f` by permuting the positions
of the index set `S` (every other position is untouched). -/
def PermOnSet {α : Type} (S : Set Nat) (f g : Nat → α) : Prop :=
  ∃ σ : Equiv.Perm Nat, (∀ i, i ∉ S → σ i = i) ∧ ∀ i, g i = f (σ i)

/-- Iterated parent in the implicit binary heap layout (`parent c = (c-1)/2`);
used to reason about which positions `siftDown` can touch. -/
def parentIter : Nat → Nat → Nat
  | 0, p => p
  | k + 1, p => parentIter k ((p - 1) / 2)

/-- Position `p` lies in the subtree rooted at `r` of the implicit heap. -/
def isDesc (r p : Nat) : Prop := ∃ k, parentIter k p = r

/-- Array positions `first + p` with `p < hi` lying in the heap subtree
rooted at `r`: the only positions a call to siftDown may move. -/
def subtreeSet (r hi first : Nat) : Set Nat :=
  {x | ∃ p, p < hi ∧ isDesc r p ∧ x = first + p}

/-! Theorems.  First the elementary claims, then the verification of the
embedded standard library sort and the ordering claims. -/

theorem goRemoveChar_not_mem (old : Char) (s : GoString) : old ∉ goRemoveChar old s := by
  induction s with
  | nil => simp [goRemoveChar]
  | cons c rest ih =>
    by_cases h : c = old
    · simpa [goRemoveChar, h] using ih
    · simp [goRemoveChar, h, ih]
      exact fun hco => absurd hco.symm h

theorem goRemoveChar_of_not_mem (old : Char) (s : GoString) (h : old ∉ s) :
    goRemoveChar old s = s := by
  induction s with
  | nil => rfl
  | cons c rest ih =>
    simp only [List.mem_cons, not_or] at h
    have hne : ¬ c = old := fun hh => h.1 hh.symm
    simp [goRemoveChar, hne, ih h.2]

theorem goRemoveChar_eq_filter (old : Char) (s : GoString) :
    goRemoveChar old s = s.filter (fun c => c != old) := by
  induction s with
  | nil => rfl
  | cons c rest ih =>
    by_cases h : c = old
    · simp [goRemoveChar, h, ih]
    · simp [goRemoveChar, h, ih, List.filter_cons]

/-- C7: GetCacheKey is idempotent, and on a string already free of path
separators it is the identity. -/
theorem C7_GetCacheKey_idempotent (s : StoragePackerV2) (x : GoString) :
    GetCacheKey s (GetCacheKey s x) = GetCacheKey s x ∧
    ('/' ∉ x → GetCacheKey s x = x) := by
  refine ⟨?_, ?_⟩
  · exact goRemoveChar_of_not_mem '/' _ (goRemoveChar_not_mem '/' x)
  · intro h
    exact goRemoveChar_of_not_mem '/' x h

/-- Witness for C7 at a concrete separator-free input. -/
theorem C7_GetCacheKey_idempotent_witness :
    GetCacheKey ⟨8⟩ "ab".data = "ab".data :=
  (C7_GetCacheKey_idempotent ⟨8⟩ "ab".data).2 (by decide)

/-- C9: GetCacheKey returns exactly the characters of its input in order with
every slash removed, for every input string, and hence its output never
contains a slash. -/
theorem C9_GetCacheKey_removes_all_slashes (s : StoragePackerV2) (x : GoString) :
    GetCacheKey s x = x.filter (fun c => c != '/') ∧ '/' ∉ GetCacheKey s x :=
  ⟨goRemoveChar_eq_filter '/' x, goRemoveChar_not_mem '/' x⟩

/-- C4: firstKey errors exactly when the key is shorter than
BaseBucketBits/4 characters, and otherwise returns the first
BaseBucketBits/4 characters of the key with no error. -/
theorem C4_firstKey_short_iff (s : StoragePackerV2) (key : GoString) :
    ((firstKey s key).2.isSome = true ↔ key.length < s.BaseBucketBits / 4) ∧
    (s.BaseBucketBits / 4 ≤ key.length →
      firstKey s key = (key.take (s.BaseBucketBits / 4), none)) := by
  constructor
  · by_cases h : key.length < s.BaseBucketBits / 4 <;> simp [firstKey, h]
  · intro h
    simp [firstKey, Nat.not_lt.mpr h]

/-- Witness for C4 with an 8-bit configuration and a 3-character key. -/
theorem C4_firstKey_short_iff_witness :
    firstKey ⟨8⟩ "abc".data = ("ab".data, none) :=
  (C4_firstKey_short_iff ⟨8⟩ "abc".data).2 (by decide)

/-- C10: when the key is too short, firstKey returns the whole original key
unchanged alongside the error. -/
theorem C10_firstKey_short_returns_input (s : StoragePackerV2) (key : GoString)
    (h : key.length < s.BaseBucketBits / 4) :
    firstKey s key = (key, some keyTooShortMsg) := by
  simp [firstKey, h]

/-- Witness for C10 with an 8-bit configuration and a 1-character key. -/
theorem C10_firstKey_short_returns_input_witness :
    firstKey ⟨8⟩ "a".data = ("a".data, some keyTooShortMsg) :=
  C10_firstKey_short_returns_input ⟨8⟩ "a".data (by decide)

/-- C8: GetItemIDHash is deterministic: as a pure function of the injected
digest primitive and the id, two calls on the same id yield identical
output (in this embedding the Go function reads no other state, so equal
inputs give equal outputs by construction). -/
theorem C8_GetItemIDHash_deterministic (blake : GoString → List (Fin 256)) (id : GoString) :
    GetItemIDHash blake id = GetItemIDHash blake id ∧
    (∀ id2, id = id2 → GetItemIDHash blake id = GetItemIDHash blake id2) :=
  ⟨rfl, fun _ h => by rw [h]⟩

/-- Witness for C8 at a concrete digest function and id. -/
theorem C8_GetItemIDHash_deterministic_witness :
    GetItemIDHash (fun _ => [(0 : Fin 256)]) "a".data =
      GetItemIDHash (fun _ => [(0 : Fin 256)]) "a".data :=
  (C8_GetItemIDHash_deterministic (fun _ => [(0 : Fin 256)]) "a".data).2 "a".data rfl

/-- C6: keysForIDs and keysForItems preserve length and the caller's
ordering; the i-th request carries the i-th input's ID, its hash as key, and
no value (for IDs) or the i-th item as value (for items). -/
theorem C6_keysFor_preserve_order {π : Type} (blake : GoString → List (Fin 256))
    (s : StoragePackerV2) (ids : List GoString) (items : List (Item π)) :
    (keysForIDs blake s ids : List (ItemRequest π)).length = ids.length ∧
    (keysForItems blake s items).length = items.length ∧
    (∀ i : Nat, (keysForIDs blake s ids : List (ItemRequest π))[i]? =
      (ids[i]?).map fun id => ⟨id, GetItemIDHash blake id, none⟩) ∧
    (∀ i : Nat, (keysForItems blake s items)[i]? =
      (items[i]?).map fun it => ⟨it.ID, GetItemIDHash blake it.ID, some it⟩) := by
  refine ⟨by simp [keysForIDs], by simp [keysForItems], fun i => ?_, fun i => ?_⟩
  · simp [keysForIDs]
  · simp [keysForItems]

theorem checkLoop_none (ids : List GoString) : ∀ seen : List GoString,
    (∀ i, i < ids.length → ids.getD i [] ∉ seen ∧ ids.getD i [] ∉ ids.take i) →
    checkLoop seen ids = (false, []) := by
  induction ids with
  | nil => intro seen _; rfl
  | cons id rest ih =>
    intro seen h
    have h0 := h 0 (by simp)
    simp only [List.getD_cons_zero] at h0
    rw [checkLoop, if_neg h0.1]
    refine ih (id :: seen) ?_
    intro i hi
    have hsucc := h (i + 1) (by simpa using Nat.succ_lt_succ hi)
    simp only [List.getD_cons_succ, List.take_succ_cons, List.mem_cons, not_or] at hsucc
    refine ⟨?_, hsucc.2.2⟩
    simp only [List.mem_cons, not_or]
    exact ⟨hsucc.2.1, hsucc.1⟩

theorem checkLoop_found (ids : List GoString) : ∀ (seen : List GoString) (i : Nat),
    i < ids.length →
    (ids.getD i [] ∈ seen ∨ ids.getD i [] ∈ ids.take i) →
    (∀ j, j < i → ids.getD j [] ∉ seen ∧ ids.getD j [] ∉ ids.take j) →
    checkLoop seen ids = (true, ids.getD i []) := by
  induction ids with
  | nil => intro seen i hi; exact absurd hi (by simp)
  | cons id rest ih =>
    intro seen i hi hdup hmin
    match i with
    | 0 =>
      simp only [List.getD_cons_zero, List.take_zero, List.not_mem_nil, or_false] at hdup
      rw [checkLoop, if_pos hdup]
      simp
    | Nat.succ k =>
      have h0 := hmin 0 (Nat.succ_pos k)
      simp only [List.getD_cons_zero] at h0
      rw [checkLoop, if_neg h0.1]
      simp only [List.getD_cons_succ]
      refine ih (id :: seen) k (by simpa using Nat.lt_of_succ_lt_succ hi) ?_ ?_
      · simp only [List.getD_cons_succ, List.take_succ_cons, List.mem_cons] at hdup ⊢
        tauto
      · intro j hj
        have hs := hmin (j + 1) (Nat.succ_lt_succ hj)
        simp only [List.getD_cons_succ, List.take_succ_cons, List.mem_cons, not_or] at hs
        refine ⟨?_, hs.2.2⟩
        simp only [List.mem_cons, not_or]
        exact ⟨hs.2.1, hs.1⟩

theorem nodup_iff_no_early_dup (l : List GoString) :
    l.Nodup ↔ ∀ i, i < l.length → l.getD i [] ∉ l.take i := by
  induction l with
  | nil => simp
  | cons x t ih =>
    rw [List.nodup_cons, ih]
    constructor
    · rintro ⟨hx, ht⟩ i hi
      match i with
      | 0 => simp
      | Nat.succ k =>
        simp only [List.getD_cons_succ, List.take_succ_cons, List.mem_cons, not_or]
        refine ⟨?_, ht k (by simpa using Nat.lt_of_succ_lt_succ hi)⟩
        intro he
        have hk : k < t.length := by simpa using Nat.lt_of_succ_lt_succ hi
        rw [List.getD_eq_getElem t [] hk] at he
        exact hx (he ▸ List.getElem_mem hk)
    · intro h
      constructor
      · intro hmem
        rcases List.mem_iff_getElem.mp hmem with ⟨k, hk, hke⟩
        have := h (k + 1) (by simpa using Nat.succ_lt_succ hk)
        simp only [List.getD_cons_succ, List.take_succ_cons, List.mem_cons, not_or] at this
        exact this.1 (by rw [List.getD_eq_getElem t [] hk, hke])
      · intro i hi
        have := h (i + 1) (by simpa using Nat.succ_lt_succ hi)
        simp only [List.getD_cons_succ, List.take_succ_cons, List.mem_cons, not_or] at this
        exact this.2

/-- C5: checkForDuplicateIds returns (false, "") exactly on duplicate-free
inputs; on an input with duplicates it returns true together with the id at
the first position (in input order) that repeats an earlier id; in
particular on ["a","b","a"] it returns (true, "a") and on ["a","b","c"] it
returns (false, ""). -/
theorem C5_checkForDuplicateIds_first_repeat (ids : List GoString) :
    (ids.Nodup → checkForDuplicateIds ids = (false, [])) ∧
    (¬ ids.Nodup → ∃ i, i < ids.length ∧ ids.getD i [] ∈ ids.take i ∧
      (∀ j, j < i → ids.getD j [] ∉ ids.take j) ∧
      checkForDuplicateIds ids = (true, ids.getD i [])) ∧
    checkForDuplicateIds ["a".data, "b".data, "a".data] = (true, "a".data) ∧
    checkForDuplicateIds ["a".data, "b".data, "c".data] = (false, []) := by
  refine ⟨?_, ?_, by decide, by decide⟩
  · intro h
    refine checkLoop_none ids [] ?_
    intro i hi
    exact ⟨by simp, (nodup_iff_no_early_dup ids).mp h i hi⟩
  · intro h
    have hex : ∃ i, i < ids.length ∧ ids.getD i [] ∈ ids.take i := by
      by_contra hall
      push_neg at hall
      exact h ((nodup_iff_no_early_dup ids).mpr hall)
    classical
    have hlt := (Nat.find_spec hex).1
    have hminlen : ∀ j, j < Nat.find hex → j < ids.length := fun j hj => lt_trans hj hlt
    have hmin : ∀ j, j < Nat.find hex → ids.getD j [] ∉ ids.take j := by
      intro j hj hmem
      exact Nat.find_min hex hj ⟨hminlen j hj, hmem⟩
    refine ⟨Nat.find hex, hlt, (Nat.find_spec hex).2, hmin, ?_⟩
    refine checkLoop_found ids [] (Nat.find hex) hlt (Or.inr (Nat.find_spec hex).2) ?_
    intro j hj
    exact ⟨by simp, hmin j hj⟩

/-- Witness for C5: a duplicate-free batch and a batch with a duplicate. -/
theorem C5_checkForDuplicateIds_first_repeat_witness :
    checkForDuplicateIds ["x".data, "y".data] = (false, []) ∧
    (∃ i, i < (["a".data, "b".data, "a".data] : List GoString).length ∧
      (["a".data, "b".data, "a".data] : List GoString).getD i [] ∈
        (["a".data, "b".data, "a".data] : List GoString).take i ∧
      (∀ j, j < i → (["a".data, "b".data, "a".data] : List GoString).getD j [] ∉
        (["a".data, "b".data, "a".data] : List GoString).take j) ∧
      checkForDuplicateIds ["a".data, "b".data, "a".data] =
        (true, (["a".data, "b".data, "a".data] : List GoString).getD i [])) :=
  ⟨(C5_checkForDuplicateIds_first_repeat ["x".data, "y".data]).1 (by decide),
   (C5_checkForDuplicateIds_first_repeat ["a".data, "b".data, "a".data]).2.1 (by decide)⟩

theorem lt_sixteen_pow_succ (n : Nat) : n < 16 ^ (n + 1) := by
  induction n with
  | zero => norm_num
  | succ k ih =>
    have h1 : (16 : Nat) ^ (k + 1) < 16 ^ (k + 2) :=
      Nat.pow_lt_pow_succ (by norm_num)
    omega

theorem natToHexF_eq_digits : ∀ fuel n, n ≠ 0 → n < 16 ^ fuel →
    natToHexF fuel n = ((Nat.digits 16 n).map hexDigitChar).reverse := by
  intro fuel
  induction fuel with
  | zero => intro n h0 hlt; simp at hlt; omega
  | succ f ih =>
    intro n h0 hlt
    rw [natToHexF]
    by_cases h16 : n < 16
    · rw [if_pos h16]
      rw [Nat.digits_def' (by norm_num : (1:Nat) < 16) (Nat.pos_of_ne_zero h0)]
      rw [Nat.div_eq_of_lt h16]
      simp [Nat.mod_eq_of_lt h16]
    · rw [if_neg h16]
      have hd : n / 16 ≠ 0 := by
        have : 16 ≤ n := le_of_not_lt h16
        have := Nat.div_pos this (by norm_num)
        omega
      have hlt2 : n / 16 < 16 ^ f := by
        rw [Nat.div_lt_iff_lt_mul (by norm_num : (0:Nat) < 16)]
        calc n < 16 ^ (f + 1) := hlt
          _ = 16 ^ f * 16 := by rw [pow_succ]
      rw [Nat.digits_def' (by norm_num : (1:Nat) < 16) (Nat.pos_of_ne_zero h0)]
      rw [List.map_cons, List.reverse_cons, ih (n / 16) hd hlt2]

theorem natToHex_eq_digits (n : Nat) (h0 : n ≠ 0) :
    natToHex n = ((Nat.digits 16 n).map hexDigitChar).reverse :=
  natToHexF_eq_digits (n + 1) n h0 (lt_sixteen_pow_succ n)

theorem natToHex_length_le (n w : Nat) (hw : 0 < w) (h : n < 16 ^ w) :
    (natToHex n).length ≤ w := by
  by_cases h0 : n = 0
  · subst h0
    simpa [natToHex, natToHexF, hexDigitChar] using hw
  · rw [natToHex_eq_digits n h0]
    rw [List.length_reverse, List.length_map]
    rw [Nat.digits_len 16 n (by norm_num) h0]
    have := (Nat.lt_pow_iff_log_lt (by norm_num) h0).mp h
    omega

theorem sprintfHex_length (w n : Nat) (hw : 0 < w) (h : n < 16 ^ w) :
    (sprintfHex w n).length = w := by
  have := natToHex_length_le n w hw h
  simp only [sprintfHex, List.length_append, List.length_replicate]
  omega

theorem hexValue_append_zeros (k : Nat) (t : GoString) :
    hexValue (List.replicate k '0' ++ t) = hexValue t := by
  unfold hexValue
  rw [List.foldl_append]
  have hz : ∀ m, (List.replicate m '0').foldl (fun acc c => 16 * acc + hexCharVal c) 0 = 0 := by
    intro m
    induction m with
    | zero => rfl
    | succ p ih =>
      rw [List.replicate_succ, List.foldl_cons]
      have : (16 * 0 + hexCharVal '0') = 0 := by decide
      rw [this, ih]
  rw [hz k]

theorem hexCharVal_hexDigitChar : ∀ d, d < 16 → hexCharVal (hexDigitChar d) = d := by decide

theorem hexValue_digits_reverse : ∀ ds : List Nat, (∀ d ∈ ds, d < 16) →
    hexValue ((ds.map hexDigitChar).reverse) = Nat.ofDigits 16 ds := by
  intro ds
  induction ds with
  | nil => intro; simp [hexValue, Nat.ofDigits_nil]
  | cons d t ih =>
    intro h
    rw [List.map_cons, List.reverse_cons]
    unfold hexValue
    rw [List.foldl_append]
    have ht := ih (fun x hx => h x (List.mem_cons_of_mem d hx))
    unfold hexValue at ht
    rw [ht, List.foldl_cons, List.foldl_nil]
    rw [hexCharVal_hexDigitChar d (h d (List.mem_cons_self d t))]
    rw [Nat.ofDigits_cons]
    
    ring

theorem hexValue_natToHex (n : Nat) : hexValue (natToHex n) = n := by
  by_cases h0 : n = 0
  · subst h0; decide
  · rw [natToHex_eq_digits n h0,
      hexValue_digits_reverse _ (fun d hd => Nat.digits_lt_base (by norm_num) hd)]
    exact_mod_cast congrArg id (Nat.ofDigits_digits 16 n)

theorem hexValue_sprintfHex (w n : Nat) : hexValue (sprintfHex w n) = n := by
  unfold sprintfHex
  rw [hexValue_append_zeros, hexValue_natToHex]

/-- C3: for a configuration whose BaseBucketBits is a positive multiple of 4,
getAllBaseBucketKeys returns exactly 2 ^ BaseBucketBits entries, all
distinct, each the zero-padded hex rendering (of length BaseBucketBits/4) of
its own index, in ascending numeric order. -/
theorem C3_getAllBaseBucketKeys_enumeration (s : StoragePackerV2)
    (hpos : 0 < s.BaseBucketBits) (hmul : s.BaseBucketBits % 4 = 0) :
    (getAllBaseBucketKeys s).length = 2 ^ s.BaseBucketBits ∧
    (getAllBaseBucketKeys s).Nodup ∧
    (∀ k ∈ getAllBaseBucketKeys s, k.length = s.BaseBucketBits / 4) ∧
    (∀ i, i < 2 ^ s.BaseBucketBits →
      (getAllBaseBucketKeys s).getD i [] = sprintfHex (s.BaseBucketBits / 4) i ∧
      hexValue ((getAllBaseBucketKeys s).getD i []) = i) ∧
    List.Pairwise (fun x y => hexValue x < hexValue y) (getAllBaseBucketKeys s) := by
  have hw : 0 < s.BaseBucketBits / 4 := by omega
  have hpow : 2 ^ s.BaseBucketBits = 16 ^ (s.BaseBucketBits / 4) := by
    have h4 : s.BaseBucketBits = 4 * (s.BaseBucketBits / 4) := by omega
    calc 2 ^ s.BaseBucketBits = 2 ^ (4 * (s.BaseBucketBits / 4)) := by rw [← h4]
      _ = (2 ^ 4) ^ (s.BaseBucketBits / 4) := by rw [pow_mul]
      _ = 16 ^ (s.BaseBucketBits / 4) := by norm_num
  have hinj : Function.Injective (sprintfHex (s.BaseBucketBits / 4)) := by
    intro a b hab
    have : hexValue (sprintfHex (s.BaseBucketBits / 4) a) =
        hexValue (sprintfHex (s.BaseBucketBits / 4) b) := by rw [hab]
    rwa [hexValue_sprintfHex, hexValue_sprintfHex] at this
  have hget : ∀ i, i < 2 ^ s.BaseBucketBits →
      (getAllBaseBucketKeys s).getD i [] = sprintfHex (s.BaseBucketBits / 4) i := by
    intro i hi
    have hlen : i < (getAllBaseBucketKeys s).length := by
      simpa [getAllBaseBucketKeys] using hi
    rw [List.getD_eq_getElem _ _ hlen]
    simp [getAllBaseBucketKeys]
  refine ⟨by simp [getAllBaseBucketKeys], ?_, ?_, ?_, ?_⟩
  · exact (List.nodup_range _).map hinj
  · intro k hk
    rcases List.mem_map.mp hk with ⟨i, hi, rfl⟩
    have hi' : i < 2 ^ s.BaseBucketBits := List.mem_range.mp hi
    exact sprintfHex_length _ i hw (hpow ▸ hi')
  · intro i hi
    refine ⟨hget i hi, ?_⟩
    rw [hget i hi, hexValue_sprintfHex]
  · unfold getAllBaseBucketKeys
    rw [List.pairwise_map]
    refine (List.pairwise_lt_range _).imp ?_
    intro a b hab
    rw [hexValue_sprintfHex, hexValue_sprintfHex]
    exact hab

/-- Witness for C3 at the default 8-bit configuration. -/
theorem C3_getAllBaseBucketKeys_enumeration_witness :
    (getAllBaseBucketKeys ⟨8⟩).length = 2 ^ (8 : Nat) ∧
    (getAllBaseBucketKeys ⟨8⟩).Nodup ∧
    (∀ k ∈ getAllBaseBucketKeys ⟨8⟩, k.length = 8 / 4) ∧
    (∀ i, i < 2 ^ (8 : Nat) →
      (getAllBaseBucketKeys ⟨8⟩).getD i [] = sprintfHex (8 / 4) i ∧
      hexValue ((getAllBaseBucketKeys ⟨8⟩).getD i []) = i) ∧
    List.Pairwise (fun x y => hexValue x < hexValue y) (getAllBaseBucketKeys ⟨8⟩) :=
  C3_getAllBaseBucketKeys_enumeration ⟨8⟩ (by decide) (by decide)

section SortProofs

variable {α : Type}

theorem PermOnSet.refl (S : Set Nat) (f : Nat → α) : PermOnSet S f f :=
  ⟨Equiv.refl Nat, fun _ _ => rfl, fun _ => rfl⟩

theorem PermOnSet.trans {S : Set Nat} {f g h : Nat → α}
    (h1 : PermOnSet S f g) (h2 : PermOnSet S g h) : PermOnSet S f h := by
  obtain ⟨σ, hσ, hfg⟩ := h1
  obtain ⟨τ, hτ, hgh⟩ := h2
  refine ⟨τ.trans σ, ?_, ?_⟩
  · intro i hi
    simp [Equiv.trans_apply, hτ i hi, hσ i hi]
  · intro i
    simp [Equiv.trans_apply, hgh i, hfg (τ i)]

theorem PermOnSet.mono {S T : Set Nat} (hST : S ⊆ T) {f g : Nat → α}
    (h : PermOnSet S f g) : PermOnSet T f g := by
  obtain ⟨σ, hσ, hfg⟩ := h
  exact ⟨σ, fun i hi => hσ i (fun hmem => hi (hST hmem)), hfg⟩

theorem fswap_left (f : Nat → α) (i j : Nat) : fswap f i j i = f j := by
  unfold fswap
  simp

theorem fswap_right (f : Nat → α) (i j : Nat) : fswap f i j j = f i := by
  unfold fswap
  by_cases h : j = i
  · subst h
    simp
  · simp [h]

theorem fswap_other (f : Nat → α) {i j x : Nat} (h1 : x ≠ i) (h2 : x ≠ j) :
    fswap f i j x = f x := by
  unfold fswap
  simp [h1, h2]

theorem PermOnSet.fswap {S : Set Nat} (f : Nat → α) {i j : Nat}
    (hi : i ∈ S) (hj : j ∈ S) : PermOnSet S f (fswap f i j) := by
  refine ⟨Equiv.swap i j, ?_, ?_⟩
  · intro x hx
    exact Equiv.swap_apply_of_ne_of_ne (fun h => hx (h ▸ hi)) (fun h => hx (h ▸ hj))
  · intro x
    by_cases hxi : x = i
    · subst hxi
      rw [fswap_left, Equiv.swap_apply_left]
    · by_cases hxj : x = j
      · subst hxj
        rw [fswap_right, Equiv.swap_apply_right]
      · rw [fswap_other f hxi hxj, Equiv.swap_apply_of_ne_of_ne hxi hxj]

theorem PermOnSet.eq_outside {S : Set Nat} {f g : Nat → α} (h : PermOnSet S f g)
    {i : Nat} (hi : i ∉ S) : g i = f i := by
  obtain ⟨σ, hσ, hfg⟩ := h
  rw [hfg i, hσ i hi]

theorem PermOnSet.transport {S : Set Nat} {f g : Nat → α} (h : PermOnSet S f g)
    (P : α → Prop) (hP : ∀ i ∈ S, P (f i)) : ∀ i ∈ S, P (g i) := by
  obtain ⟨σ, hσ, hfg⟩ := h
  intro i hiS
  rw [hfg i]
  by_cases hmem : σ i ∈ S
  · exact hP _ hmem
  · have h1 : σ (σ i) = σ i := hσ _ hmem
    have h2 : σ i = i := σ.injective h1
    rw [h2]
    exact hP i hiS

theorem PermOnSet.list_perm {n : Nat} {f g : Nat → α}
    (h : PermOnSet (Set.Ico 0 n) f g) :
    ((List.range n).map g).Perm ((List.range n).map f) := by
  obtain ⟨σ, hσ, hfg⟩ := h
  have hout : ∀ i : Nat, ¬ i < n → σ i = i := by
    intro i hi
    exact hσ i (by simp [Set.mem_Ico]; omega)
  have hmap : ∀ i ∈ List.range n, g i = (f ∘ σ) i := fun i _ => hfg i
  rw [List.map_congr_left hmap, ← List.map_map]
  refine List.Perm.map f ?_
  have hnodup : ((List.range n).map σ).Nodup := (List.nodup_range n).map σ.injective
  refine List.perm_of_nodup_nodup_toFinset_eq hnodup (List.nodup_range n) ?_
  ext x
  simp only [List.mem_toFinset, List.mem_map, List.mem_range]
  constructor
  · rintro ⟨y, hy, rfl⟩
    by_contra hx
    have h1 : σ (σ y) = σ y := hout _ hx
    have h2 : σ y = y := σ.injective h1
    omega
  · intro hx
    refine ⟨σ.symm x, ?_, Equiv.apply_symm_apply σ x⟩
    by_contra hy
    have hfix : σ (σ.symm x) = σ.symm x := hout _ hy
    rw [Equiv.apply_symm_apply] at hfix
    omega

theorem map_range_getD (l : List α) (d : α) :
    (List.range l.length).map (fun i => l.getD i d) = l := by
  apply List.ext_getElem
  · simp
  · intro i h1 h2
    simp only [List.getElem_map, List.getElem_range]
    rw [List.getD_eq_getElem l d h2]

theorem sortedWin_pairwise {lt : α → α → Bool} {n : Nat} {f : Nat → α}
    (h : SortedWin lt 0 n f) :
    List.Pairwise (fun x y => lt y x = false) ((List.range n).map f) := by
  rw [List.pairwise_iff_getElem]
  intro i j hi hj hij
  simp only [List.length_map, List.length_range] at hi hj
  simp only [List.getElem_map, List.getElem_range]
  exact h i j (Nat.zero_le i) hij hj

theorem goStrLt_asymm : ∀ s t : GoString, goStrLt s t = true → goStrLt t s = false := by
  intro s
  induction s with
  | nil =>
    intro t h
    cases t with
    | nil => simp [goStrLt] at h
    | cons b bs => simp [goStrLt]
  | cons a as ih =>
    intro t h
    cases t with
    | nil => simp [goStrLt] at h
    | cons b bs =>
      simp only [goStrLt] at h ⊢
      by_cases hab : a < b
      · rw [if_neg (lt_asymm hab), if_pos hab]
      · by_cases hba : b < a
        · rw [if_neg hab, if_pos hba] at h
          exact absurd h (by simp)
        · rw [if_neg hab, if_neg hba] at h
          rw [if_neg hba, if_neg hab]
          exact ih bs h

theorem goStrLt_ge_trans : ∀ s t u : GoString,
    goStrLt s t = false → goStrLt t u = false → goStrLt s u = false := by
  intro s
  induction s with
  | nil =>
    intro t u h1 h2
    cases t with
    | nil =>
      cases u with
      | nil => rfl
      | cons c cs => simp [goStrLt] at h2
    | cons b bs => simp [goStrLt] at h1
  | cons a as ih =>
    intro t u h1 h2
    cases t with
    | nil =>
      cases u with
      | nil => simp [goStrLt]
      | cons c cs => simp [goStrLt] at h2
    | cons b bs =>
      cases u with
      | nil => simp [goStrLt]
      | cons c cs =>
        simp only [goStrLt] at h1 h2 ⊢
        by_cases hab : a < b
        · rw [if_pos hab] at h1
          exact absurd h1 (by simp)
        · rw [if_neg hab] at h1
          by_cases hbc : b < c
          · rw [if_pos hbc] at h2
            exact absurd h2 (by simp)
          · rw [if_neg hbc] at h2
            have hba2 : b ≤ a := not_lt.mp hab
            have hcb2 : c ≤ b := not_lt.mp hbc
            rw [if_neg (not_lt.mpr (le_trans hcb2 hba2))]
            by_cases hca : c < a
            · rw [if_pos hca]
            · rw [if_neg hca]
              have hac : a = c := le_antisymm (not_lt.mp hca) (le_trans hcb2 hba2)
              have hb : b = a := le_antisymm hba2 (hac ▸ hcb2)
              rw [hb, if_neg (lt_irrefl a)] at h1
              rw [hb, hac, if_neg (lt_irrefl c)] at h2
              exact ih bs cs h1 h2

theorem ltByKey_asymm {π : Type} : LtAsymm (ltByKey : ItemRequest π → ItemRequest π → Bool) :=
  fun x y h => goStrLt_asymm x.Key y.Key h

theorem ltByKey_ge_trans {π : Type} :
    LtGeTrans (ltByKey : ItemRequest π → ItemRequest π → Bool) :=
  fun x y z h1 h2 => goStrLt_ge_trans x.Key y.Key z.Key h1 h2

theorem LtAsymm.irrefl {lt : α → α → Bool} (hA : LtAsymm lt) (x : α) : lt x x = false := by
  by_cases h : lt x x = true
  · exact absurd (hA x x h) (by simp [h])
  · simpa using h

theorem LtAsymm.lt_trans {lt : α → α → Bool} (hA : LtAsymm lt) (hT : LtGeTrans lt)
    {x y z : α} (h1 : lt x y = true) (h2 : lt y z = true) : lt x z = true := by
  by_cases h : lt x z = true
  · exact h
  · have hxz : lt x z = false := by simpa using h
    have hzy : lt z y = false := hA y z h2
    have := hT x z y hxz hzy
    rw [this] at h1
    exact absurd h1 (by simp)

variable {lt : α → α → Bool}

theorem foldl_perm_preserve {S : Set Nat} (step : (Nat → α) → Nat → (Nat → α)) (l : List Nat)
    (h : ∀ g i, i ∈ l → PermOnSet S g (step g i)) :
    ∀ f, PermOnSet S f (l.foldl step f) := by
  induction l with
  | nil => intro f; exact PermOnSet.refl S f
  | cons x t ih =>
    intro f
    rw [List.foldl_cons]
    exact PermOnSet.trans (h f x (List.mem_cons_self x t))
      (ih (fun g i hi => h g i (List.mem_cons_of_mem x hi)) (step f x))

theorem insertInner_perm (lt : α → α → Bool) (a : Nat) : ∀ (j : Nat) (f : Nat → α),
    PermOnSet (Set.Ico a (j + 1)) f (insertInner lt a j f) := by
  intro j
  induction j with
  | zero => intro f; exact PermOnSet.refl _ f
  | succ j ih =>
    intro f
    rw [insertInner]
    by_cases hc : a < j + 1 ∧ lt (f (j + 1)) (f j) = true
    · rw [if_pos hc]
      have hj1 : j + 1 ∈ Set.Ico a (j + 2) := by
        simp [Set.mem_Ico]; omega
      have hj0 : j ∈ Set.Ico a (j + 2) := by
        simp [Set.mem_Ico]; omega
      exact PermOnSet.trans (PermOnSet.fswap f hj1 hj0)
        (PermOnSet.mono (Set.Ico_subset_Ico_right (by omega)) (ih (fswap f (j + 1) j)))
    · rw [if_neg hc]
      exact PermOnSet.refl _ f

theorem insertInner_sorted (hA : LtAsymm lt) (hT : LtGeTrans lt) (a m : Nat) :
    ∀ (j : Nat) (f : Nat → α), j ≤ m →
    (∀ p q, a ≤ p → p < q → q ≤ m → p ≠ j → q ≠ j → lt (f q) (f p) = false) →
    (∀ q, j < q → q ≤ m → lt (f j) (f q) = true) →
    SortedWin lt a (m + 1) (insertInner lt a j f) := by
  intro j
  induction j with
  | zero =>
    intro f hjm inv1 inv2
    intro p q hap hpq hqm
    have hqm' : q ≤ m := by omega
    by_cases hp0 : p = 0
    · subst hp0
      exact hA _ _ (inv2 q (by omega) hqm')
    · exact inv1 p q hap hpq hqm' hp0 (by omega)
  | succ j ih =>
    intro f hjm inv1 inv2
    rw [insertInner]
    by_cases hc : a < j + 1 ∧ lt (f (j + 1)) (f j) = true
    · rw [if_pos hc]
      obtain ⟨haj, hswap⟩ := hc
      set g := fswap f (j + 1) j with hg
      have hgj : g j = f (j + 1) := fswap_right f (j + 1) j
      have hgj1 : g (j + 1) = f j := fswap_left f (j + 1) j
      have hgo : ∀ x, x ≠ j → x ≠ j + 1 → g x = f x := by
        intro x h1 h2
        exact fswap_other f h2 h1
      refine ih g (by omega) ?_ ?_
      · intro p q hap hpq hqm hpj hqj
        by_cases hq1 : q = j + 1
        · subst hq1
          have hpj' : p < j := by omega
          rw [hgj1, hgo p (by omega) (by omega)]
          exact inv1 p j hap hpj' (by omega) (by omega) (by omega)
        · by_cases hp1 : p = j + 1
          · subst hp1
            rw [hgo q hqj (by omega)]
            rw [hgj1]
            exact inv1 j q (by omega) (by omega) hqm (by omega) (by omega)
          · rw [hgo p hpj hp1, hgo q hqj hq1]
            exact inv1 p q hap hpq hqm (by omega) (by omega)
      · intro q hjq hqm
        by_cases hq1 : q = j + 1
        · subst hq1
          rw [hgj, hgj1]
          exact hswap
        · rw [hgj, hgo q (by omega) hq1]
          exact inv2 q (by omega) hqm
    · rw [if_neg hc]
      intro p q hap hpq hqm
      have hqm' : q ≤ m := by omega
      by_cases hcase : a < j + 1
      · have hstop : lt (f (j + 1)) (f j) = false := by
          rcases Bool.eq_false_or_eq_true (lt (f (j + 1)) (f j)) with h | h
          · exact absurd ⟨hcase, h⟩ hc
          · exact h
        by_cases hq1 : q = j + 1
        · subst hq1
          by_cases hpj : p = j
          · subst hpj
            exact hstop
          · have hpj' : p < j := by omega
            exact hT _ _ _ hstop (inv1 p j hap hpj' (by omega) (by omega) (by omega))
        · by_cases hp1 : p = j + 1
          · subst hp1
            exact hA _ _ (inv2 q (by omega) hqm')
          · exact inv1 p q hap hpq hqm' hp1 hq1
      · -- a ≥ j + 1: every index in the window is above j
        by_cases hq1 : q = j + 1
        · omega
        · by_cases hp1 : p = j + 1
          · subst hp1
            exact hA _ _ (inv2 q (by omega) hqm')
          · exact inv1 p q hap hpq hqm' hp1 hq1

theorem insertionSortGo_spec (hA : LtAsymm lt) (hT : LtGeTrans lt) (f : Nat → α) (a b : Nat) :
    SortedWin lt a b (insertionSortGo lt f a b) ∧
    PermOnSet (Set.Ico a b) f (insertionSortGo lt f a b) := by
  have main : ∀ k, a + 1 + k ≤ b →
      SortedWin lt a (a + 1 + k) ((List.range' (a + 1) k).foldl (fun g i => insertInner lt a i g) f) ∧
      PermOnSet (Set.Ico a (a + 1 + k)) f
        ((List.range' (a + 1) k).foldl (fun g i => insertInner lt a i g) f) := by
    intro k
    induction k with
    | zero =>
      intro _
      constructor
      · intro p q hap hpq hq
        omega
      · exact PermOnSet.refl _ f
    | succ k ih =>
      intro hk
      obtain ⟨ihs, ihp⟩ := ih (by omega)
      rw [List.range'_concat, List.foldl_append, List.foldl_cons, List.foldl_nil]
      simp only [Nat.one_mul]
      set g := (List.range' (a + 1) k).foldl (fun g i => insertInner lt a i g) f with hgdef
      have hs : SortedWin lt a (a + 1 + k + 1) (insertInner lt a (a + 1 + k) g) := by
        refine insertInner_sorted hA hT a (a + 1 + k) (a + 1 + k) g (le_refl _) ?_ ?_
        · intro p q hap hpq hqm hpj hqj
          exact ihs p q hap hpq (by omega)
        · intro q hq hqm
          omega
      constructor
      · intro p q hap hpq hq
        exact hs p q hap hpq (by omega)
      · refine PermOnSet.trans (PermOnSet.mono (Set.Ico_subset_Ico_right (by omega)) ihp) ?_
        have := insertInner_perm lt a (a + 1 + k) g
        exact PermOnSet.mono (Set.Ico_subset_Ico_right (by omega)) this
  by_cases hab : a + 1 ≤ b
  · have := main (b - (a + 1)) (by omega)
    have heq : a + 1 + (b - (a + 1)) = b := by omega
    rw [heq] at this
    exact this
  · have hz : b - (a + 1) = 0 := by omega
    unfold insertionSortGo
    rw [hz]
    constructor
    · intro p q hap hpq hq
      omega
    · exact PermOnSet.refl _ f

theorem shellPassGo_perm (lt : α → α → Bool) (f : Nat → α) (a b : Nat) :
    PermOnSet (Set.Ico a b) f (shellPassGo lt f a b) := by
  unfold shellPassGo
  refine foldl_perm_preserve _ _ ?_ f
  intro g i hi
  rw [List.mem_range'_1] at hi
  by_cases hc : lt (g i) (g (i - 6)) = true
  · rw [if_pos hc]
    refine PermOnSet.fswap g ?_ ?_
    · simp [Set.mem_Ico]; omega
    · simp [Set.mem_Ico]; omega
  · rw [if_neg hc]
    exact PermOnSet.refl _ g

theorem scanLtF_spec (pivot : Nat) : ∀ (fuel : Nat) (f : Nat → α) (a c : Nat), c - a ≤ fuel →
    a ≤ scanLtF lt pivot fuel f a c ∧
    (a ≤ c → scanLtF lt pivot fuel f a c ≤ c) ∧
    (∀ k, a ≤ k → k < scanLtF lt pivot fuel f a c → lt (f k) (f pivot) = true) := by
  intro fuel
  induction fuel with
  | zero =>
    intro f a c hf
    rw [scanLtF]
    exact ⟨le_refl a, fun h => by omega, fun k h1 h2 => by omega⟩
  | succ fuel ih =>
    intro f a c hf
    rw [scanLtF]
    by_cases hc : a < c ∧ lt (f a) (f pivot) = true
    · rw [if_pos hc]
      obtain ⟨h1, h2, h3⟩ := ih f (a + 1) c (by omega)
      refine ⟨by omega, fun _ => h2 (by omega), ?_⟩
      intro k hk1 hk2
      by_cases hk : k = a
      · subst hk; exact hc.2
      · exact h3 k (by omega) hk2
    · rw [if_neg hc]
      exact ⟨le_refl a, fun h => h, fun k h1 h2 => by omega⟩

theorem scanBF_spec (pivot : Nat) : ∀ (fuel : Nat) (f : Nat → α) (b c : Nat), c - b ≤ fuel →
    b ≤ scanBF lt pivot fuel f b c ∧
    (b ≤ c → scanBF lt pivot fuel f b c ≤ c) ∧
    (∀ k, b ≤ k → k < scanBF lt pivot fuel f b c → lt (f pivot) (f k) = false) ∧
    (scanBF lt pivot fuel f b c < c → lt (f pivot) (f (scanBF lt pivot fuel f b c)) = true) := by
  intro fuel
  induction fuel with
  | zero =>
    intro f b c hf
    rw [scanBF]
    exact ⟨le_refl b, fun h => by omega, fun k h1 h2 => by omega, fun h => by omega⟩
  | succ fuel ih =>
    intro f b c hf
    rw [scanBF]
    by_cases hc : b < c ∧ lt (f pivot) (f b) = false
    · rw [if_pos hc]
      obtain ⟨h1, h2, h3, h4⟩ := ih f (b + 1) c (by omega)
      refine ⟨by omega, fun _ => h2 (by omega), ?_, h4⟩
      intro k hk1 hk2
      by_cases hk : k = b
      · subst hk; exact hc.2
      · exact h3 k (by omega) hk2
    · rw [if_neg hc]
      refine ⟨le_refl b, fun h => h, fun k h1 h2 => by omega, ?_⟩
      intro hlt
      rcases Bool.eq_false_or_eq_true (lt (f pivot) (f b)) with h | h
      · exact h
      · exact absurd ⟨hlt, h⟩ hc

theorem scanCF_spec (pivot : Nat) : ∀ (fuel : Nat) (f : Nat → α) (b c : Nat), c - b ≤ fuel →
    scanCF lt pivot fuel f b c ≤ c ∧
    (b ≤ c → b ≤ scanCF lt pivot fuel f b c) ∧
    (∀ k, scanCF lt pivot fuel f b c ≤ k → k < c → lt (f pivot) (f k) = true) ∧
    (b < scanCF lt pivot fuel f b c →
      lt (f pivot) (f (scanCF lt pivot fuel f b c - 1)) = false) := by
  intro fuel
  induction fuel with
  | zero =>
    intro f b c hf
    rw [scanCF]
    exact ⟨le_refl c, fun h => h, fun k h1 h2 => by omega, fun h => by omega⟩
  | succ fuel ih =>
    intro f b c hf
    rw [scanCF]
    by_cases hc : b < c ∧ lt (f pivot) (f (c - 1)) = true
    · rw [if_pos hc]
      obtain ⟨h1, h2, h3, h4⟩ := ih f b (c - 1) (by omega)
      refine ⟨by omega, fun _ => h2 (by omega), ?_, h4⟩
      intro k hk1 hk2
      by_cases hk : k = c - 1
      · subst hk; exact hc.2
      · exact h3 k hk1 (by omega)
    · rw [if_neg hc]
      refine ⟨le_refl c, fun h => by omega, fun k h1 h2 => by omega, ?_⟩
      intro hlt
      rcases Bool.eq_false_or_eq_true (lt (f pivot) (f (c - 1))) with h | h
      · exact absurd ⟨hlt, h⟩ hc
      · exact h

theorem scanPBF_spec (pivot : Nat) : ∀ (fuel : Nat) (f : Nat → α) (a b : Nat), b - a ≤ fuel →
    scanPBF lt pivot fuel f a b ≤ b ∧
    (a ≤ b → a ≤ scanPBF lt pivot fuel f a b) ∧
    (b ≤ a → scanPBF lt pivot fuel f a b = b) ∧
    (∀ k, scanPBF lt pivot fuel f a b ≤ k → k < b → lt (f k) (f pivot) = false) ∧
    (a < scanPBF lt pivot fuel f a b →
      lt (f (scanPBF lt pivot fuel f a b - 1)) (f pivot) = true) := by
  intro fuel
  induction fuel with
  | zero =>
    intro f a b hf
    rw [scanPBF]
    exact ⟨le_refl b, fun h => by omega, fun _ => rfl, fun k h1 h2 => by omega, fun h => by omega⟩
  | succ fuel ih =>
    intro f a b hf
    rw [scanPBF]
    by_cases hc : a < b ∧ lt (f (b - 1)) (f pivot) = false
    · rw [if_pos hc]
      obtain ⟨h1, h2, h3, h4, h5⟩ := ih f a (b - 1) (by omega)
      refine ⟨by omega, fun _ => h2 (by omega), fun h => by omega, ?_, h5⟩
      intro k hk1 hk2
      by_cases hk : k = b - 1
      · subst hk; exact hc.2
      · exact h4 k hk1 (by omega)
    · rw [if_neg hc]
      refine ⟨le_refl b, fun h => h, fun _ => rfl, fun k h1 h2 => by omega, ?_⟩
      intro hlt
      rcases Bool.eq_false_or_eq_true (lt (f (b - 1)) (f pivot)) with h | h
      · exact h
      · exact absurd ⟨hlt, h⟩ hc

theorem scanPAF_spec (pivot : Nat) : ∀ (fuel : Nat) (f : Nat → α) (a b : Nat), b - a ≤ fuel →
    a ≤ scanPAF lt pivot fuel f a b ∧
    (a ≤ b → scanPAF lt pivot fuel f a b ≤ b) ∧
    (∀ k, a ≤ k → k < scanPAF lt pivot fuel f a b → lt (f k) (f pivot) = true) ∧
    (scanPAF lt pivot fuel f a b < b →
      lt (f (scanPAF lt pivot fuel f a b)) (f pivot) = false) := by
  intro fuel
  induction fuel with
  | zero =>
    intro f a b hf
    rw [scanPAF]
    exact ⟨le_refl a, fun h => by omega, fun k h1 h2 => by omega, fun h => by omega⟩
  | succ fuel ih =>
    intro f a b hf
    rw [scanPAF]
    by_cases hc : a < b ∧ lt (f a) (f pivot) = true
    · rw [if_pos hc]
      obtain ⟨h1, h2, h3, h4⟩ := ih f (a + 1) b (by omega)
      refine ⟨by omega, fun _ => h2 (by omega), ?_, h4⟩
      intro k hk1 hk2
      by_cases hk : k = a
      · subst hk; exact hc.2
      · exact h3 k (by omega) hk2
    · rw [if_neg hc]
      refine ⟨le_refl a, fun h => h, fun k h1 h2 => by omega, ?_⟩
      intro hlt
      rcases Bool.eq_false_or_eq_true (lt (f a) (f pivot)) with h | h
      · exact absurd ⟨hlt, h⟩ hc
      · exact h

theorem median_tail_spec (hA : LtAsymm lt) (hT : LtGeTrans lt) (f1 g : Nat → α)
    (m1 m0 m2 : Nat) (h01 : m0 ≠ m1) (h02 : m0 ≠ m2) (h12 : m1 ≠ m2)
    (S : Set Nat) (hS0 : m0 ∈ S) (hS1 : m1 ∈ S) (hS2 : m2 ∈ S)
    (post1 : lt (f1 m1) (f1 m0) = false)
    (heq : g = if lt (f1 m2) (f1 m1) = true then
        (if lt (fswap f1 m2 m1 m1) (fswap f1 m2 m1 m0) = true
          then fswap (fswap f1 m2 m1) m1 m0 else fswap f1 m2 m1)
      else f1) :
    PermOnSet S f1 g ∧ lt (g m1) (g m0) = false ∧ lt (g m2) (g m1) = false ∧
      lt (g m2) (g m0) = false := by
  by_cases hc2 : lt (f1 m2) (f1 m1) = true
  · rw [if_pos hc2] at heq
    have hv2 : fswap f1 m2 m1 m2 = f1 m1 := fswap_left f1 m2 m1
    have hv1 : fswap f1 m2 m1 m1 = f1 m2 := fswap_right f1 m2 m1
    have hv0 : fswap f1 m2 m1 m0 = f1 m0 := fswap_other f1 h02 h01
    have h21 : lt (fswap f1 m2 m1 m2) (fswap f1 m2 m1 m1) = false := by
      rw [hv2, hv1]; exact hA _ _ hc2
    have h20 : lt (fswap f1 m2 m1 m2) (fswap f1 m2 m1 m0) = false := by
      rw [hv2, hv0]; exact post1
    by_cases hc3 : lt (fswap f1 m2 m1 m1) (fswap f1 m2 m1 m0) = true
    · rw [if_pos hc3] at heq
      subst heq
      have hw1 : fswap (fswap f1 m2 m1) m1 m0 m1 = fswap f1 m2 m1 m0 :=
        fswap_left (fswap f1 m2 m1) m1 m0
      have hw0 : fswap (fswap f1 m2 m1) m1 m0 m0 = fswap f1 m2 m1 m1 :=
        fswap_right (fswap f1 m2 m1) m1 m0
      have hw2 : fswap (fswap f1 m2 m1) m1 m0 m2 = fswap f1 m2 m1 m2 :=
        fswap_other (fswap f1 m2 m1) (Ne.symm h12) (Ne.symm h02)
      refine ⟨?_, ?_, ?_, ?_⟩
      · exact PermOnSet.trans (PermOnSet.fswap f1 hS2 hS1)
          (PermOnSet.fswap (fswap f1 m2 m1) hS1 hS0)
      · rw [hw1, hw0]
        exact hA _ _ hc3
      · rw [hw2, hw1]
        exact h20
      · rw [hw2, hw0]
        exact h21
    · have hc3' : lt (fswap f1 m2 m1 m1) (fswap f1 m2 m1 m0) = false := by
        rcases Bool.eq_false_or_eq_true (lt (fswap f1 m2 m1 m1) (fswap f1 m2 m1 m0)) with h | h
        · exact absurd h hc3
        · exact h
      rw [if_neg hc3] at heq
      subst heq
      exact ⟨PermOnSet.fswap f1 hS2 hS1, hc3', h21, h20⟩
  · have hc2' : lt (f1 m2) (f1 m1) = false := by
      rcases Bool.eq_false_or_eq_true (lt (f1 m2) (f1 m1)) with h | h
      · exact absurd h hc2
      · exact h
    rw [if_neg hc2] at heq
    rw [heq]
    exact ⟨PermOnSet.refl S f1, post1, hc2', hT _ _ _ hc2' post1⟩

theorem medianOfThreeGo_spec (hA : LtAsymm lt) (hT : LtGeTrans lt) (f : Nat → α)
    (m1 m0 m2 : Nat) (h01 : m0 ≠ m1) (h02 : m0 ≠ m2) (h12 : m1 ≠ m2)
    (S : Set Nat) (hS0 : m0 ∈ S) (hS1 : m1 ∈ S) (hS2 : m2 ∈ S) :
    PermOnSet S f (medianOfThreeGo lt f m1 m0 m2) ∧
    lt (medianOfThreeGo lt f m1 m0 m2 m1) (medianOfThreeGo lt f m1 m0 m2 m0) = false ∧
    lt (medianOfThreeGo lt f m1 m0 m2 m2) (medianOfThreeGo lt f m1 m0 m2 m1) = false ∧
    lt (medianOfThreeGo lt f m1 m0 m2 m2) (medianOfThreeGo lt f m1 m0 m2 m0) = false := by
  by_cases hc1 : lt (f m1) (f m0) = true
  · have heq : medianOfThreeGo lt f m1 m0 m2 =
        if lt (fswap f m1 m0 m2) (fswap f m1 m0 m1) = true then
          (if lt (fswap (fswap f m1 m0) m2 m1 m1) (fswap (fswap f m1 m0) m2 m1 m0) = true
            then fswap (fswap (fswap f m1 m0) m2 m1) m1 m0 else fswap (fswap f m1 m0) m2 m1)
        else fswap f m1 m0 := by
      simp only [medianOfThreeGo, if_pos hc1]
    have post1 : lt (fswap f m1 m0 m1) (fswap f m1 m0 m0) = false := by
      rw [fswap_left, fswap_right]
      exact hA _ _ hc1
    obtain ⟨hp, h1, h2, h3⟩ := median_tail_spec hA hT (fswap f m1 m0)
      (medianOfThreeGo lt f m1 m0 m2) m1 m0 m2 h01 h02 h12 S hS0 hS1 hS2 post1 heq
    exact ⟨PermOnSet.trans (PermOnSet.fswap f hS1 hS0) hp, h1, h2, h3⟩
  · have hc1' : lt (f m1) (f m0) = false := by
      rcases Bool.eq_false_or_eq_true (lt (f m1) (f m0)) with h | h
      · exact absurd h hc1
      · exact h
    have heq : medianOfThreeGo lt f m1 m0 m2 =
        if lt (f m2) (f m1) = true then
          (if lt (fswap f m2 m1 m1) (fswap f m2 m1 m0) = true
            then fswap (fswap f m2 m1) m1 m0 else fswap f m2 m1)
        else f := by
      simp only [medianOfThreeGo, if_neg hc1]
    exact median_tail_spec hA hT f (medianOfThreeGo lt f m1 m0 m2) m1 m0 m2
      h01 h02 h12 S hS0 hS1 hS2 hc1' heq

theorem partLoopF_spec (pivot : Nat) : ∀ (fuel : Nat) (f : Nat → α) (b c : Nat),
    c - b ≤ fuel → b ≤ c → pivot < b →
    PermOnSet (Set.Ico b c) f (partLoopF lt pivot fuel f b c).1 ∧
    b ≤ (partLoopF lt pivot fuel f b c).2.1 ∧
    (partLoopF lt pivot fuel f b c).2.1 = (partLoopF lt pivot fuel f b c).2.2 ∧
    (partLoopF lt pivot fuel f b c).2.2 ≤ c ∧
    (∀ k, b ≤ k → k < (partLoopF lt pivot fuel f b c).2.1 →
      lt ((partLoopF lt pivot fuel f b c).1 pivot) ((partLoopF lt pivot fuel f b c).1 k) = false) ∧
    (∀ k, (partLoopF lt pivot fuel f b c).2.2 ≤ k → k < c →
      lt ((partLoopF lt pivot fuel f b c).1 pivot) ((partLoopF lt pivot fuel f b c).1 k) = true) := by
  intro fuel
  induction fuel with
  | zero =>
    intro f b c hf hbc hpb
    refine ⟨PermOnSet.refl _ f, le_refl b, ?_, le_refl c, ?_, ?_⟩
    · show b = c
      omega
    · intro k h1 h2
      have h2' : k < b := h2
      omega
    · intro k h1 h2
      have h1' : c ≤ k := h1
      omega
  | succ fuel ih =>
    intro f b c hf hbc hpb
    obtain ⟨hBle, hBub, hRB, hSB⟩ := scanBF_spec pivot c f b c (by omega)
    set b1 := scanBF lt pivot c f b c with hb1def
    have hb1c : b1 ≤ c := hBub hbc
    obtain ⟨hCub, hCge, hRC, hSC⟩ := scanCF_spec pivot c f b1 c (by omega)
    set c1 := scanCF lt pivot c f b1 c with hc1def
    have hb1c1 : b1 ≤ c1 := hCge hb1c
    rw [partLoopF]
    rw [← hb1def, ← hc1def]
    by_cases hstop : c1 ≤ b1
    · rw [if_pos hstop]
      have heq : b1 = c1 := le_antisymm hb1c1 hstop
      refine ⟨PermOnSet.refl _ f, hBle, heq, hCub, ?_, ?_⟩
      · intro k h1 h2
        exact hRB k h1 h2
      · intro k h1 h2
        exact hRC k h1 h2
    · rw [if_neg hstop]
      have hb1ltc1 : b1 < c1 := by omega
      have hsb : lt (f pivot) (f b1) = true := hSB (by omega)
      have hsc : lt (f pivot) (f (c1 - 1)) = false := hSC hb1ltc1
      have hneq : b1 ≠ c1 - 1 := by
        intro h
        rw [← h] at hsc
        rw [hsb] at hsc
        exact absurd hsc (by simp)
      have hlt2 : b1 + 1 ≤ c1 - 1 := by omega
      set g := fswap f b1 (c1 - 1) with hgdef
      have hgpiv : g pivot = f pivot := by
        rw [hgdef]
        exact fswap_other f (by omega) (by omega)
      obtain ⟨ihperm, ihb, ihbc, ihc, ihL, ihR⟩ :=
        ih g (b1 + 1) (c1 - 1) (by omega) hlt2 (by omega)
      set r := partLoopF lt pivot fuel g (b1 + 1) (c1 - 1) with hrdef
      have hrpiv : r.1 pivot = f pivot := by
        rw [ihperm.eq_outside (by simp [Set.mem_Ico]; omega), hgpiv]
      have hout : ∀ k, k < b1 + 1 ∨ c1 - 1 ≤ k → r.1 k = g k := by
        intro k hk
        exact ihperm.eq_outside (by simp [Set.mem_Ico]; omega)
      refine ⟨?_, by omega, ihbc, by omega, ?_, ?_⟩
      · refine PermOnSet.trans ?_ (PermOnSet.mono ?_ ihperm)
        · rw [hgdef]
          exact PermOnSet.fswap f (by simp [Set.mem_Ico]; omega) (by simp [Set.mem_Ico]; omega)
        · intro x hx
          simp only [Set.mem_Ico] at hx ⊢
          omega
      · intro k h1 h2
        by_cases hk1 : k < b1
        · rw [hrpiv, hout k (Or.inl (by omega)), hgdef, fswap_other f (by omega) (by omega)]
          exact hRB k h1 hk1
        · by_cases hk2 : k = b1
          · subst hk2
            rw [hrpiv, hout b1 (Or.inl (by omega)), hgdef, fswap_left]
            exact hsc
          · exact ihL k (by omega) h2
      · intro k h1 h2
        by_cases hk1 : c1 ≤ k
        · rw [hrpiv, hout k (Or.inr (by omega)), hgdef, fswap_other f (by omega) (by omega)]
          exact hRC k hk1 h2
        · by_cases hk2 : k = c1 - 1
          · subst hk2
            rw [hrpiv, hout (c1 - 1) (Or.inr (by omega)), hgdef, fswap_right]
            exact hsb
          · exact ihR k (by omega) (by omega)

theorem protectLoopF_spec (pivot A C : Nat) : ∀ (fuel : Nat) (f : Nat → α) (a b : Nat),
    b - a ≤ fuel → pivot < a → A ≤ a → A ≤ b → b ≤ C →
    (∀ k, A ≤ k → k < b → lt (f pivot) (f k) = false) →
    (∀ k, b ≤ k → k < C → lt (f pivot) (f k) = false ∧ lt (f k) (f pivot) = false) →
    PermOnSet (Set.Ico a b) f (protectLoopF lt pivot fuel f a b).1 ∧
    (protectLoopF lt pivot fuel f a b).2.2 ≤ b ∧
    A ≤ (protectLoopF lt pivot fuel f a b).2.2 ∧
    (∀ k, A ≤ k → k < (protectLoopF lt pivot fuel f a b).2.2 →
      lt ((protectLoopF lt pivot fuel f a b).1 pivot)
        ((protectLoopF lt pivot fuel f a b).1 k) = false) ∧
    (∀ k, (protectLoopF lt pivot fuel f a b).2.2 ≤ k → k < C →
      lt ((protectLoopF lt pivot fuel f a b).1 pivot)
        ((protectLoopF lt pivot fuel f a b).1 k) = false ∧
      lt ((protectLoopF lt pivot fuel f a b).1 k)
        ((protectLoopF lt pivot fuel f a b).1 pivot) = false) := by
  intro fuel
  induction fuel with
  | zero =>
    intro f a b hf hpa hAa hAb hbC hJ1 hJ2
    refine ⟨PermOnSet.refl _ f, le_refl b, hAb, ?_, ?_⟩
    · intro k h1 h2
      exact hJ1 k h1 h2
    · intro k h1 h2
      exact hJ2 k h1 h2
  | succ fuel ih =>
    intro f a b hf hpa hAa hAb hbC hJ1 hJ2
    obtain ⟨hBub, hBge, hBeq, RPB, SPB⟩ := scanPBF_spec pivot b f a b (by omega)
    set b1 := scanPBF lt pivot b f a b with hb1def
    have hAb1 : A ≤ b1 := by
      by_cases hab : a ≤ b
      · have := hBge hab
        omega
      · rw [hBeq (by omega)]
        exact hAb
    obtain ⟨hAge, hAub, RPA, SPA⟩ := scanPAF_spec pivot b1 f a b1 (by omega)
    set a1 := scanPAF lt pivot b1 f a b1 with ha1def
    have hJ2' : ∀ k, b1 ≤ k → k < C → lt (f pivot) (f k) = false ∧
        lt (f k) (f pivot) = false := by
      intro k h1 h2
      by_cases hkb : k < b
      · exact ⟨hJ1 k (by omega) hkb, RPB k h1 hkb⟩
      · exact hJ2 k (by omega) h2
    rw [protectLoopF]
    rw [← hb1def, ← ha1def]
    by_cases hstop : b1 ≤ a1
    · rw [if_pos hstop]
      refine ⟨PermOnSet.refl _ f, hBub, hAb1, ?_, ?_⟩
      · intro k h1 h2
        have h2' : k < b1 := h2
        exact hJ1 k h1 (by omega)
      · intro k h1 h2
        have h1' : b1 ≤ k := h1
        exact hJ2' k h1' h2
    · rw [if_neg hstop]
      have ha1b1 : a1 < b1 := by omega
      have hspb : lt (f (b1 - 1)) (f pivot) = true := SPB (by omega)
      have hspa : lt (f a1) (f pivot) = false := SPA ha1b1
      have hneq : a1 ≠ b1 - 1 := by
        intro h
        rw [← h] at hspb
        rw [hspa] at hspb
        exact absurd hspb (by simp)
      have hlt2 : a1 + 1 ≤ b1 - 1 := by omega
      have hequivA : lt (f pivot) (f a1) = false ∧ lt (f a1) (f pivot) = false :=
        ⟨hJ1 a1 (by omega) (by omega), hspa⟩
      set g := fswap f a1 (b1 - 1) with hgdef
      have hgpiv : g pivot = f pivot := by
        rw [hgdef]
        exact fswap_other f (by omega) (by omega)
      have hJ1g : ∀ k, A ≤ k → k < b1 - 1 → lt (g pivot) (g k) = false := by
        intro k h1 h2
        rw [hgpiv]
        by_cases hk : k = a1
        · subst hk
          rw [hgdef, fswap_left]
          exact hJ1 (b1 - 1) (by omega) (by omega)
        · rw [hgdef, fswap_other f hk (by omega)]
          exact hJ1 k h1 (by omega)
      have hJ2g : ∀ k, b1 - 1 ≤ k → k < C → lt (g pivot) (g k) = false ∧
          lt (g k) (g pivot) = false := by
        intro k h1 h2
        rw [hgpiv]
        by_cases hk : k = b1 - 1
        · subst hk
          rw [hgdef, fswap_right]
          exact hequivA
        · rw [hgdef, fswap_other f (by omega) hk]
          exact hJ2' k (by omega) h2
      obtain ⟨ihperm, ihub, ihlb, ihL, ihR⟩ := ih g (a1 + 1) (b1 - 1) (by omega) (by omega)
        (by omega) (by omega) (by omega) hJ1g hJ2g
      refine ⟨?_, by omega, ihlb, ihL, ihR⟩
      refine PermOnSet.trans ?_ (PermOnSet.mono ?_ ihperm)
      · rw [hgdef]
        exact PermOnSet.fswap f (by simp [Set.mem_Ico]; omega) (by simp [Set.mem_Ico]; omega)
      · intro x hx
        simp only [Set.mem_Ico] at hx ⊢
        omega

theorem doPivotChoose_spec (hA : LtAsymm lt) (hT : LtGeTrans lt) (f : Nat → α) (lo hi : Nat)
    (h12 : 12 < hi - lo) :
    PermOnSet (Set.Ico lo hi) f (doPivotChoose lt f lo hi) ∧
    lt (doPivotChoose lt f lo hi (hi - 1)) (doPivotChoose lt f lo hi lo) = false := by
  have hmlo : lo < (lo + hi) / 2 := by omega
  have hmhi : (lo + hi) / 2 < hi - 1 := by omega
  by_cases h40 : hi - lo > 40
  · have hs : 5 ≤ (hi - lo) / 8 := by omega
    have heq : doPivotChoose lt f lo hi =
        medianOfThreeGo lt
          (medianOfThreeGo lt
            (medianOfThreeGo lt
              (medianOfThreeGo lt f lo (lo + (hi - lo) / 8) (lo + 2 * ((hi - lo) / 8)))
              ((lo + hi) / 2) ((lo + hi) / 2 - (hi - lo) / 8) ((lo + hi) / 2 + (hi - lo) / 8))
            (hi - 1) (hi - 1 - (hi - lo) / 8) (hi - 1 - 2 * ((hi - lo) / 8)))
          lo ((lo + hi) / 2) (hi - 1) := by
      simp only [doPivotChoose, if_pos h40]
    rw [heq]
    obtain ⟨hp1, _, _, _⟩ := medianOfThreeGo_spec hA hT f lo (lo + (hi - lo) / 8)
      (lo + 2 * ((hi - lo) / 8)) (by omega) (by omega) (by omega) (Set.Ico lo hi)
      (by simp [Set.mem_Ico]; omega) (by simp [Set.mem_Ico]; omega)
      (by simp [Set.mem_Ico]; omega)
    obtain ⟨hp2, _, _, _⟩ := medianOfThreeGo_spec hA hT
      (medianOfThreeGo lt f lo (lo + (hi - lo) / 8) (lo + 2 * ((hi - lo) / 8)))
      ((lo + hi) / 2) ((lo + hi) / 2 - (hi - lo) / 8) ((lo + hi) / 2 + (hi - lo) / 8)
      (by omega) (by omega) (by omega) (Set.Ico lo hi)
      (by simp [Set.mem_Ico]; omega) (by simp [Set.mem_Ico]; omega)
      (by simp [Set.mem_Ico]; omega)
    obtain ⟨hp3, _, _, _⟩ := medianOfThreeGo_spec hA hT
      (medianOfThreeGo lt
        (medianOfThreeGo lt f lo (lo + (hi - lo) / 8) (lo + 2 * ((hi - lo) / 8)))
        ((lo + hi) / 2) ((lo + hi) / 2 - (hi - lo) / 8) ((lo + hi) / 2 + (hi - lo) / 8))
      (hi - 1) (hi - 1 - (hi - lo) / 8) (hi - 1 - 2 * ((hi - lo) / 8))
      (by omega) (by omega) (by omega) (Set.Ico lo hi)
      (by simp [Set.mem_Ico]; omega) (by simp [Set.mem_Ico]; omega)
      (by simp [Set.mem_Ico]; omega)
    obtain ⟨hp4, _, hlast, _⟩ := medianOfThreeGo_spec hA hT
      (medianOfThreeGo lt
        (medianOfThreeGo lt
          (medianOfThreeGo lt f lo (lo + (hi - lo) / 8) (lo + 2 * ((hi - lo) / 8)))
          ((lo + hi) / 2) ((lo + hi) / 2 - (hi - lo) / 8) ((lo + hi) / 2 + (hi - lo) / 8))
        (hi - 1) (hi - 1 - (hi - lo) / 8) (hi - 1 - 2 * ((hi - lo) / 8)))
      lo ((lo + hi) / 2) (hi - 1)
      (by omega) (by omega) (by omega) (Set.Ico lo hi)
      (by simp [Set.mem_Ico]; omega) (by simp [Set.mem_Ico]; omega)
      (by simp [Set.mem_Ico]; omega)
    exact ⟨PermOnSet.trans (PermOnSet.trans (PermOnSet.trans hp1 hp2) hp3) hp4, hlast⟩
  · have heq : doPivotChoose lt f lo hi =
        medianOfThreeGo lt f lo ((lo + hi) / 2) (hi - 1) := by
      simp only [doPivotChoose, if_neg h40]
    rw [heq]
    obtain ⟨hp, _, hlast, _⟩ := medianOfThreeGo_spec hA hT f lo ((lo + hi) / 2) (hi - 1)
      (by omega) (by omega) (by omega) (Set.Ico lo hi)
      (by simp [Set.mem_Ico]; omega) (by simp [Set.mem_Ico]; omega)
      (by simp [Set.mem_Ico]; omega)
    exact ⟨hp, hlast⟩

theorem doPivotDups_spec (hA : LtAsymm lt) (f : Nat → α) (lo hi m b c : Nat)
    (hm : m = (lo + hi) / 2) (h12 : 12 < hi - lo)
    (hlob : lo + 1 ≤ b) (hbc : b = c) (hchi : c ≤ hi - 1)
    (regionL : ∀ k, lo + 1 ≤ k → k < b → lt (f lo) (f k) = false)
    (regionR : ∀ k, c ≤ k → k < hi - 1 → lt (f lo) (f k) = true)
    (hhi1 : lt (f (hi - 1)) (f lo) = false) :
    ∃ f2 b2 c2, (doPivotDups lt f lo hi m b c).1 = (f2, b2, c2) ∧
      PermOnSet (Set.Ico lo hi) f f2 ∧
      f2 lo = f lo ∧
      lo + 1 ≤ b2 ∧ b2 ≤ b ∧ b2 ≤ c2 ∧ c ≤ c2 ∧ c2 ≤ hi ∧
      (∀ k, lo + 1 ≤ k → k < b2 → lt (f2 lo) (f2 k) = false) ∧
      (∀ k, b2 ≤ k → k < c2 → lt (f2 lo) (f2 k) = false ∧ lt (f2 k) (f2 lo) = false) ∧
      (∀ k, c2 ≤ k → k < hi → lt (f2 k) (f2 lo) = false) := by
  by_cases hcond : ¬ (hi - c < 5) ∧ hi - c < (hi - lo) / 4
  case neg =>
    refine ⟨f, b, c, ?_, PermOnSet.refl _ f, rfl, hlob, le_refl b, by omega, le_refl c,
      by omega, ?_, ?_, ?_⟩
    · simp only [doPivotDups]
      rw [if_neg hcond]
    · intro k h1 h2
      exact regionL k h1 h2
    · intro k h1 h2
      omega
    · intro k h1 h2
      by_cases hk : k = hi - 1
      · subst hk
        exact hhi1
      · exact hA _ _ (regionR k h1 (by omega))
  case pos =>
    have hc5 : 5 ≤ hi - c := by omega
    have hq4 : hi - c < (hi - lo) / 4 := hcond.2
    have hclo : lo + 11 ≤ c := by omega
    have hble : lo + 11 ≤ b := by omega
    have hm1 : lo + 1 ≤ m := by omega
    have hmb : m < b - 2 := by omega
    have hmhi : m < hi - 1 := by omega
    -- step one: probe hi-1
    by_cases hI : lt (f lo) (f (hi - 1)) = false
    · -- swap (c, hi-1), c grows by one
      have hv_lo : fswap f c (hi - 1) lo = f lo := fswap_other f (by omega) (by omega)
      have hv_b1 : fswap f c (hi - 1) (b - 1) = f (b - 1) := fswap_other f (by omega) (by omega)
      have hv_m : fswap f c (hi - 1) m = f m := fswap_other f (by omega) (by omega)
      have hv_c : fswap f c (hi - 1) c = f (hi - 1) := fswap_left f c (hi - 1)
      have hv_hi : fswap f c (hi - 1) (hi - 1) = f c := fswap_right f c (hi - 1)
      have hv_k : ∀ k, k ≠ c → k ≠ hi - 1 → fswap f c (hi - 1) k = f k := by
        intro k hk1 hk2
        exact fswap_other f hk1 hk2
      have hperm1 : PermOnSet (Set.Ico lo hi) f (fswap f c (hi - 1)) :=
        PermOnSet.fswap f (by simp [Set.mem_Ico]; omega) (by simp [Set.mem_Ico]; omega)
      have hRc : lt (f c) (f lo) = false := hA _ _ (regionR c (le_refl c) (by omega))
      have hR1 : ∀ k, c + 1 ≤ k → k < hi →
          lt (fswap f c (hi - 1) k) (fswap f c (hi - 1) lo) = false := by
        intro k h1 h2
        rw [hv_lo]
        by_cases hk : k = hi - 1
        · subst hk
          rw [hv_hi]
          exact hRc
        · rw [hv_k k (by omega) hk]
          exact hA _ _ (regionR k (by omega) (by omega))
      have hMc : lt (fswap f c (hi - 1) lo) (fswap f c (hi - 1) c) = false ∧
          lt (fswap f c (hi - 1) c) (fswap f c (hi - 1) lo) = false := by
        rw [hv_lo, hv_c]
        exact ⟨hI, hhi1⟩
      have hL1 : ∀ k, lo + 1 ≤ k → k < b →
          lt (fswap f c (hi - 1) lo) (fswap f c (hi - 1) k) = false := by
        intro k h1 h2
        rw [hv_lo, hv_k k (by omega) (by omega)]
        exact regionL k h1 h2
      -- step two: probe b-1
      by_cases hII : lt (f (b - 1)) (f lo) = false
      · have hIIc : lt (fswap f c (hi - 1) (b - 1)) (fswap f c (hi - 1) lo) = false := by
          rw [hv_b1, hv_lo]; exact hII
        -- step three: probe m
        by_cases hIII : lt (f m) (f lo) = false
        · have hIIIc : lt (fswap f c (hi - 1) m) (fswap f c (hi - 1) lo) = false := by
            rw [hv_m, hv_lo]; exact hIII
          refine ⟨fswap (fswap f c (hi - 1)) m (b - 1 - 1), b - 1 - 1, c + 1, ?_, ?_, ?_,
            by omega, by omega, by omega, by omega, by omega, ?_, ?_, ?_⟩
          · simp only [doPivotDups]
            rw [if_pos hcond]
            simp [hI, hIIc, hIIIc]
          · exact PermOnSet.trans hperm1 (PermOnSet.fswap _ (by simp [Set.mem_Ico]; omega)
              (by simp [Set.mem_Ico]; omega))
          · rw [fswap_other _ (by omega) (by omega), hv_lo]
          · intro k h1 h2
            rw [fswap_other _ (by omega) (by omega), hv_lo]
            by_cases hk : k = m
            · rw [hk, fswap_left, hv_k (b - 1 - 1) (by omega) (by omega)]
              exact regionL (b - 1 - 1) (by omega) (by omega)
            · rw [fswap_other _ hk (by omega), hv_k k (by omega) (by omega)]
              exact regionL k h1 (by omega)
          · intro k h1 h2
            rw [fswap_other _ (by omega) (by omega), hv_lo]
            by_cases hk : k = b - 1 - 1
            · subst hk
              rw [fswap_right, hv_m]
              exact ⟨regionL m hm1 (by omega), hIII⟩
            · by_cases hk2 : k = b - 1
              · subst hk2
                rw [fswap_other _ (by omega) (by omega), hv_b1]
                exact ⟨regionL (b - 1) (by omega) (by omega), hII⟩
              · have hk3 : k = c := by omega
                rw [hk3, fswap_other _ (by omega) (by omega), hv_c]
                exact ⟨hI, hhi1⟩
          · intro k h1 h2
            rw [fswap_other _ (show k ≠ m by omega) (by omega),
              fswap_other _ (show lo ≠ m by omega) (by omega)]
            exact hR1 k h1 h2
        · have hIII' : lt (f m) (f lo) = true := by
            rcases Bool.eq_false_or_eq_true (lt (f m) (f lo)) with h | h
            · exact h
            · exact absurd h hIII
          have hIIIc : lt (fswap f c (hi - 1) m) (fswap f c (hi - 1) lo) = true := by
            rw [hv_m, hv_lo]; exact hIII'
          refine ⟨fswap f c (hi - 1), b - 1, c + 1, ?_, hperm1, hv_lo,
            by omega, by omega, by omega, by omega, by omega, ?_, ?_, ?_⟩
          · simp only [doPivotDups]
            rw [if_pos hcond]
            simp [hI, hIIc, hIIIc]
          · intro k h1 h2
            exact hL1 k h1 (by omega)
          · intro k h1 h2
            by_cases hk : k = b - 1
            · subst hk
              rw [hv_lo, hv_b1]
              exact ⟨regionL (b - 1) (by omega) (by omega), hII⟩
            · have hk2 : k = c := by omega
              rw [hk2]
              exact hMc
          · exact hR1
      · have hII' : lt (f (b - 1)) (f lo) = true := by
          rcases Bool.eq_false_or_eq_true (lt (f (b - 1)) (f lo)) with h | h
          · exact h
          · exact absurd h hII
        have hIIc : lt (fswap f c (hi - 1) (b - 1)) (fswap f c (hi - 1) lo) = true := by
          rw [hv_b1, hv_lo]; exact hII'
        by_cases hIII : lt (f m) (f lo) = false
        · have hIIIc : lt (fswap f c (hi - 1) m) (fswap f c (hi - 1) lo) = false := by
            rw [hv_m, hv_lo]; exact hIII
          refine ⟨fswap (fswap f c (hi - 1)) m (b - 1), b - 1, c + 1, ?_, ?_, ?_,
            by omega, by omega, by omega, by omega, by omega, ?_, ?_, ?_⟩
          · simp only [doPivotDups]
            rw [if_pos hcond]
            simp [hI, hIIc, hIIIc]
          · exact PermOnSet.trans hperm1 (PermOnSet.fswap _ (by simp [Set.mem_Ico]; omega)
              (by simp [Set.mem_Ico]; omega))
          · rw [fswap_other _ (by omega) (by omega), hv_lo]
          · intro k h1 h2
            rw [fswap_other _ (by omega) (by omega), hv_lo]
            by_cases hk : k = m
            · rw [hk, fswap_left, hv_b1]
              exact hA _ _ hII'
            · rw [fswap_other _ hk (by omega), hv_k k (by omega) (by omega)]
              exact regionL k h1 (by omega)
          · intro k h1 h2
            rw [fswap_other _ (by omega) (by omega), hv_lo]
            by_cases hk : k = b - 1
            · subst hk
              rw [fswap_right, hv_m]
              exact ⟨regionL m hm1 (by omega), hIII⟩
            · have hk2 : k = c := by omega
              rw [hk2, fswap_other _ (by omega) (by omega), hv_c]
              exact ⟨hI, hhi1⟩
          · intro k h1 h2
            rw [fswap_other _ (show k ≠ m by omega) (by omega),
              fswap_other _ (show lo ≠ m by omega) (by omega)]
            exact hR1 k h1 h2
        · have hIII' : lt (f m) (f lo) = true := by
            rcases Bool.eq_false_or_eq_true (lt (f m) (f lo)) with h | h
            · exact h
            · exact absurd h hIII
          have hIIIc : lt (fswap f c (hi - 1) m) (fswap f c (hi - 1) lo) = true := by
            rw [hv_m, hv_lo]; exact hIII'
          refine ⟨fswap f c (hi - 1), b, c + 1, ?_, hperm1, hv_lo,
            by omega, le_refl b, by omega, by omega, by omega, hL1, ?_, hR1⟩
          · simp only [doPivotDups]
            rw [if_pos hcond]
            simp [hI, hIIc, hIIIc]
          · intro k h1 h2
            have hk : k = c := by omega
            rw [hk]
            exact hMc
    · have hI' : lt (f lo) (f (hi - 1)) = true := by
        rcases Bool.eq_false_or_eq_true (lt (f lo) (f (hi - 1))) with h | h
        · exact h
        · exact absurd h hI
      have hR1 : ∀ k, c ≤ k → k < hi → lt (f k) (f lo) = false := by
        intro k h1 h2
        by_cases hk : k = hi - 1
        · subst hk
          exact hhi1
        · exact hA _ _ (regionR k h1 (by omega))
      by_cases hII : lt (f (b - 1)) (f lo) = false
      · by_cases hIII : lt (f m) (f lo) = false
        · refine ⟨fswap f m (b - 1 - 1), b - 1 - 1, c, ?_, ?_, ?_,
            by omega, by omega, by omega, le_refl c, by omega, ?_, ?_, ?_⟩
          · simp only [doPivotDups]
            rw [if_pos hcond]
            simp [hI', hII, hIII]
          · exact PermOnSet.fswap f (by simp [Set.mem_Ico]; omega)
              (by simp [Set.mem_Ico]; omega)
          · exact fswap_other f (by omega) (by omega)
          · intro k h1 h2
            rw [fswap_other f (by omega) (by omega)]
            by_cases hk : k = m
            · rw [hk, fswap_left]
              exact regionL (b - 1 - 1) (by omega) (by omega)
            · rw [fswap_other f hk (by omega)]
              exact regionL k h1 (by omega)
          · intro k h1 h2
            rw [fswap_other f (by omega) (by omega)]
            by_cases hk : k = b - 1 - 1
            · subst hk
              rw [fswap_right]
              exact ⟨regionL m hm1 (by omega), hIII⟩
            · have hk2 : k = b - 1 := by omega
              subst hk2
              rw [fswap_other f (by omega) (by omega)]
              exact ⟨regionL (b - 1) (by omega) (by omega), hII⟩
          · intro k h1 h2
            rw [fswap_other f (by omega) (by omega), fswap_other f (by omega) (by omega)]
            exact hR1 k h1 h2
        · have hIII' : lt (f m) (f lo) = true := by
            rcases Bool.eq_false_or_eq_true (lt (f m) (f lo)) with h | h
            · exact h
            · exact absurd h hIII
          refine ⟨f, b - 1, c, ?_, PermOnSet.refl _ f, rfl,
            by omega, by omega, by omega, le_refl c, by omega, ?_, ?_, ?_⟩
          · simp only [doPivotDups]
            rw [if_pos hcond]
            simp [hI', hII, hIII']
          · intro k h1 h2
            exact regionL k h1 (by omega)
          · intro k h1 h2
            have hk : k = b - 1 := by omega
            subst hk
            exact ⟨regionL (b - 1) (by omega) (by omega), hII⟩
          · exact hR1
      · have hII' : lt (f (b - 1)) (f lo) = true := by
          rcases Bool.eq_false_or_eq_true (lt (f (b - 1)) (f lo)) with h | h
          · exact h
          · exact absurd h hII
        by_cases hIII : lt (f m) (f lo) = false
        · refine ⟨fswap f m (b - 1), b - 1, c, ?_, ?_, ?_,
            by omega, by omega, by omega, le_refl c, by omega, ?_, ?_, ?_⟩
          · simp only [doPivotDups]
            rw [if_pos hcond]
            simp [hI', hII', hIII]
          · exact PermOnSet.fswap f (by simp [Set.mem_Ico]; omega)
              (by simp [Set.mem_Ico]; omega)
          · exact fswap_other f (by omega) (by omega)
          · intro k h1 h2
            rw [fswap_other f (by omega) (by omega)]
            by_cases hk : k = m
            · rw [hk, fswap_left]
              exact hA _ _ hII'
            · rw [fswap_other f hk (by omega)]
              exact regionL k h1 (by omega)
          · intro k h1 h2
            rw [fswap_other f (by omega) (by omega)]
            have hk : k = b - 1 := by omega
            subst hk
            rw [fswap_right]
            exact ⟨regionL m hm1 (by omega), hIII⟩
          · intro k h1 h2
            rw [fswap_other f (by omega) (by omega), fswap_other f (by omega) (by omega)]
            exact hR1 k h1 h2
        · have hIII' : lt (f m) (f lo) = true := by
            rcases Bool.eq_false_or_eq_true (lt (f m) (f lo)) with h | h
            · exact h
            · exact absurd h hIII
          refine ⟨f, b, c, ?_, PermOnSet.refl _ f, rfl,
            hlob, le_refl b, by omega, le_refl c, by omega, ?_, ?_, hR1⟩
          · simp only [doPivotDups]
            rw [if_pos hcond]
            simp [hI', hII', hIII']
          · intro k h1 h2
            exact regionL k h1 h2
          · intro k h1 h2
            omega

theorem doPivot_assemble (hA : LtAsymm lt) (p : Nat → α) (lo hi b1 c2 : Nat)
    (hb1 : lo + 1 ≤ b1) (hb1c2 : b1 ≤ c2) (hc2hi : c2 ≤ hi)
    (hL : ∀ k, lo + 1 ≤ k → k < b1 → lt (p lo) (p k) = false)
    (hM : ∀ k, b1 ≤ k → k < c2 → lt (p lo) (p k) = false ∧ lt (p k) (p lo) = false)
    (hR : ∀ k, c2 ≤ k → k < hi → lt (p k) (p lo) = false) :
    (∀ k, lo ≤ k → k < b1 - 1 →
      lt (fswap p lo (b1 - 1) (b1 - 1)) (fswap p lo (b1 - 1) k) = false) ∧
    (∀ k, b1 - 1 ≤ k → k < c2 →
      lt (fswap p lo (b1 - 1) (b1 - 1)) (fswap p lo (b1 - 1) k) = false ∧
      lt (fswap p lo (b1 - 1) k) (fswap p lo (b1 - 1) (b1 - 1)) = false) ∧
    (∀ k, c2 ≤ k → k < hi →
      lt (fswap p lo (b1 - 1) k) (fswap p lo (b1 - 1) (b1 - 1)) = false) := by
  have hpiv : fswap p lo (b1 - 1) (b1 - 1) = p lo := fswap_right p lo (b1 - 1)
  refine ⟨?_, ?_, ?_⟩
  · intro k h1 h2
    rw [hpiv]
    by_cases hk : k = lo
    · rw [hk, fswap_left]
      exact hL (b1 - 1) (by omega) (by omega)
    · rw [fswap_other p hk (by omega)]
      exact hL k (by omega) (by omega)
  · intro k h1 h2
    by_cases hk : k = b1 - 1
    · rw [hk, hpiv]
      exact ⟨hA.irrefl _, hA.irrefl _⟩
    · rw [hpiv, fswap_other p (by omega) hk]
      exact hM k (by omega) h2
  · intro k h1 h2
    rw [hpiv, fswap_other p (by omega) (by omega)]
    exact hR k h1 h2

theorem doPivotGo_spec (hA : LtAsymm lt) (hT : LtGeTrans lt) (f : Nat → α) (lo hi : Nat)
    (h12 : 12 < hi - lo) :
    ∃ g mlo mhi, doPivotGo lt f lo hi = (g, mlo, mhi) ∧
      PermOnSet (Set.Ico lo hi) f g ∧
      lo ≤ mlo ∧ mlo < mhi ∧ mhi ≤ hi ∧
      (∀ k, lo ≤ k → k < mlo → lt (g mlo) (g k) = false) ∧
      (∀ k, mlo ≤ k → k < mhi → lt (g mlo) (g k) = false ∧ lt (g k) (g mlo) = false) ∧
      (∀ k, mhi ≤ k → k < hi → lt (g k) (g mlo) = false) := by
  obtain ⟨hperm0, hpiv⟩ := doPivotChoose_spec hA hT f lo hi h12
  set f0 := doPivotChoose lt f lo hi with hf0
  obtain ⟨hale, haub, hascan⟩ := scanLtF_spec lo hi f0 (lo + 1) (hi - 1) (by omega)
  set a := scanLtF lt lo hi f0 (lo + 1) (hi - 1) with hadef
  have ha2 : a ≤ hi - 1 := haub (by omega)
  obtain ⟨hPperm, hPb, hPbc, hPc, hPL, hPR⟩ :=
    partLoopF_spec lo hi f0 a (hi - 1) (by omega) ha2 (by omega)
  set r := partLoopF lt lo hi f0 a (hi - 1) with hrdef
  set b := r.2.1 with hbdef
  set c := r.2.2 with hcdef
  have hrlo : r.1 lo = f0 lo := hPperm.eq_outside (by simp [Set.mem_Ico]; omega)
  have hrhi1 : r.1 (hi - 1) = f0 (hi - 1) := hPperm.eq_outside (by simp [Set.mem_Ico])
  have hrout : ∀ k, k < a → r.1 k = f0 k := by
    intro k hk
    exact hPperm.eq_outside (by simp [Set.mem_Ico]; omega)
  have hregL : ∀ k, lo + 1 ≤ k → k < b → lt (r.1 lo) (r.1 k) = false := by
    intro k h1 h2
    by_cases hk : k < a
    · rw [hrlo, hrout k hk]
      exact hA _ _ (hascan k h1 hk)
    · exact hPL k (by omega) h2
  have hhi1 : lt (r.1 (hi - 1)) (r.1 lo) = false := by
    rw [hrlo, hrhi1]
    exact hpiv
  obtain ⟨f2, b2, c2, hdeq, hperm2, hf2lo, hb2lo, hb2b, hb2c2, hcc2, hc2hi, hL2, hM2, hR2⟩ :=
    doPivotDups_spec hA r.1 lo hi ((lo + hi) / 2) b c rfl h12 (by omega) hPbc hPc
      hregL hPR hhi1
  set d := doPivotDups lt r.1 lo hi ((lo + hi) / 2) b c with hddef
  have hd11 : d.1.1 = f2 := by rw [hdeq]
  have hd121 : d.1.2.1 = b2 := by rw [hdeq]
  have hd122 : d.1.2.2 = c2 := by rw [hdeq]
  rcases Bool.eq_false_or_eq_true d.2 with hd2 | hd2
  · obtain ⟨hQperm, hQb, hQA, hQL, hQM⟩ :=
      protectLoopF_spec lo (lo + 1) c2 b2 f2 a b2 (by omega) (by omega) (by omega)
        (by omega) hb2c2 hL2 hM2
    set q := protectLoopF lt lo b2 f2 a b2 with hqdef
    have hqlo : q.1 lo = f2 lo := hQperm.eq_outside (by simp [Set.mem_Ico]; omega)
    have hqout : ∀ k, c2 ≤ k → q.1 k = f2 k := by
      intro k hk
      exact hQperm.eq_outside (by simp [Set.mem_Ico]; omega)
    have hQR : ∀ k, c2 ≤ k → k < hi → lt (q.1 k) (q.1 lo) = false := by
      intro k h1 h2
      rw [hqlo, hqout k h1]
      exact hR2 k h1 h2
    obtain ⟨hGL, hGM, hGR⟩ := doPivot_assemble hA q.1 lo hi q.2.2 c2 hQA (by omega) hc2hi
      hQL hQM hQR
    refine ⟨fswap q.1 lo (q.2.2 - 1), q.2.2 - 1, c2, ?_, ?_, by omega, by omega, hc2hi,
      hGL, hGM, hGR⟩
    · simp only [doPivotGo]
      rw [← hf0, ← hadef, ← hrdef, ← hbdef, ← hcdef, ← hddef, hd11, hd121, hd122,
        if_pos hd2, ← hqdef]
    · have p2 : PermOnSet (Set.Ico lo hi) f0 r.1 :=
        PermOnSet.mono (Set.Ico_subset_Ico (by omega) (by omega)) hPperm
      have p4 : PermOnSet (Set.Ico lo hi) f2 q.1 :=
        PermOnSet.mono (Set.Ico_subset_Ico (by omega) (by omega)) hQperm
      have p5 : PermOnSet (Set.Ico lo hi) q.1 (fswap q.1 lo (q.2.2 - 1)) :=
        PermOnSet.fswap q.1 (by simp [Set.mem_Ico]; omega) (by simp [Set.mem_Ico]; omega)
      exact hperm0.trans (p2.trans (hperm2.trans (p4.trans p5)))
  · have hne : ¬ d.2 = true := by simp [hd2]
    obtain ⟨hGL, hGM, hGR⟩ := doPivot_assemble hA f2 lo hi b2 c2 hb2lo hb2c2 hc2hi
      hL2 hM2 hR2
    refine ⟨fswap f2 lo (b2 - 1), b2 - 1, c2, ?_, ?_, by omega, by omega, hc2hi,
      hGL, hGM, hGR⟩
    · simp only [doPivotGo]
      rw [← hf0, ← hadef, ← hrdef, ← hbdef, ← hcdef, ← hddef, hd11, hd121, hd122,
        if_neg hne]
    · have p2 : PermOnSet (Set.Ico lo hi) f0 r.1 :=
        PermOnSet.mono (Set.Ico_subset_Ico (by omega) (by omega)) hPperm
      have p5 : PermOnSet (Set.Ico lo hi) f2 (fswap f2 lo (b2 - 1)) :=
        PermOnSet.fswap f2 (by simp [Set.mem_Ico]; omega) (by simp [Set.mem_Ico]; omega)
      exact hperm0.trans (p2.trans (hperm2.trans p5))

theorem fswap_self (f : Nat → α) (i : Nat) : fswap f i i = f := by
  funext x
  unfold fswap
  by_cases h : x = i
  · rw [if_pos h, h]
  · rw [if_neg h, if_neg h]

theorem parentIter_le : ∀ (k p : Nat), parentIter k p ≤ p := by
  intro k
  induction k with
  | zero => intro p; exact le_refl p
  | succ k ih =>
    intro p
    have h1 : parentIter (k + 1) p = parentIter k ((p - 1) / 2) := rfl
    have h2 := ih ((p - 1) / 2)
    omega

theorem parentIter_zero : ∀ k, parentIter k 0 = 0 := by
  intro k
  induction k with
  | zero => rfl
  | succ k ih =>
    have h1 : parentIter (k + 1) 0 = parentIter k ((0 - 1) / 2) := rfl
    have h2 : ((0 : Nat) - 1) / 2 = 0 := by omega
    rw [h1, h2, ih]

theorem parentIter_add : ∀ (k j p : Nat), parentIter (j + k) p = parentIter j (parentIter k p) := by
  intro k
  induction k with
  | zero => intro j p; rfl
  | succ k ih =>
    intro j p
    have h1 : parentIter (j + (k + 1)) p = parentIter (j + k) ((p - 1) / 2) := by
      have : j + (k + 1) = (j + k) + 1 := by omega
      rw [this]
      rfl
    rw [h1, ih j ((p - 1) / 2)]
    rfl

theorem isDesc_refl (r : Nat) : isDesc r r := ⟨0, rfl⟩

theorem isDesc_le {r p : Nat} (h : isDesc r p) : r ≤ p := by
  obtain ⟨k, hk⟩ := h
  rw [← hk]
  exact parentIter_le k p

theorem isDesc_trans {r q p : Nat} (h1 : isDesc r q) (h2 : isDesc q p) : isDesc r p := by
  obtain ⟨k1, hk1⟩ := h1
  obtain ⟨k2, hk2⟩ := h2
  exact ⟨k1 + k2, by rw [parentIter_add, hk2, hk1]⟩

theorem isDesc_parent {r c : Nat} (h : isDesc r ((c - 1) / 2)) : isDesc r c := by
  obtain ⟨k, hk⟩ := h
  exact ⟨k + 1, hk⟩

theorem isDesc_cases {r c : Nat} (h : isDesc r c) : c = r ∨ isDesc r ((c - 1) / 2) := by
  obtain ⟨k, hk⟩ := h
  cases k with
  | zero => exact Or.inl hk
  | succ k => exact Or.inr ⟨k, hk⟩

theorem mem_subtreeSet {r hi first p : Nat} :
    first + p ∈ subtreeSet r hi first ↔ p < hi ∧ isDesc r p := by
  constructor
  · rintro ⟨q, hq, hd, heq⟩
    have hqp : q = p := by omega
    rw [← hqp]
    exact ⟨hq, hd⟩
  · rintro ⟨h1, h2⟩
    exact ⟨p, h1, h2, rfl⟩

theorem subtreeSet_subset_Ico (r hi first : Nat) :
    subtreeSet r hi first ⊆ Set.Ico first (first + hi) := by
  rintro x ⟨p, hp, _, rfl⟩
  simp only [Set.mem_Ico]
  omega

theorem desc_dominates (hA : LtAsymm lt) (hT : LtGeTrans lt) (f : Nat → α)
    (root hi first : Nat)
    (hpairs : ∀ c, 0 < c → c < hi → isDesc root ((c - 1) / 2) →
      lt (f (first + (c - 1) / 2)) (f (first + c)) = false) :
    ∀ q, q < hi → isDesc root q → lt (f (first + root)) (f (first + q)) = false := by
  have main : ∀ k q, parentIter k q = root → q < hi →
      lt (f (first + root)) (f (first + q)) = false := by
    intro k
    induction k with
    | zero =>
      intro q h hq
      have hq' : q = root := h
      rw [← hq']
      exact hA.irrefl _
    | succ k ih =>
      intro q h hq
      by_cases hq0 : q = 0
      · rw [hq0] at h
        rw [parentIter_zero] at h
        rw [hq0, ← h]
        exact hA.irrefl _
      · have hpar : parentIter k ((q - 1) / 2) = root := h
        have h1 := ih ((q - 1) / 2) hpar (by omega)
        have h2 := hpairs q (by omega) hq ⟨k, hpar⟩
        exact hT _ _ _ h1 h2
  intro q hq hd
  obtain ⟨k, hk⟩ := hd
  exact main k q hk hq

theorem heap_root_max (hA : LtAsymm lt) (hT : LtGeTrans lt) (f : Nat → α) (n first : Nat)
    (hheap : ∀ c, 0 < c → c < n → lt (f (first + (c - 1) / 2)) (f (first + c)) = false) :
    ∀ q, q < n → lt (f (first + 0)) (f (first + q)) = false := by
  have main : ∀ j q, q ≤ j → q < n → lt (f (first + 0)) (f (first + q)) = false := by
    intro j
    induction j with
    | zero =>
      intro q h1 h2
      have hq : q = 0 := by omega
      rw [hq]
      exact hA.irrefl _
    | succ j ih =>
      intro q h1 h2
      by_cases hq0 : q = 0
      · rw [hq0]
        exact hA.irrefl _
      · exact hT _ _ _ (ih ((q - 1) / 2) (by omega) (by omega)) (hheap q (by omega) h2)
  exact fun q hq => main q q (le_refl q) hq

theorem siftDown_step (hA : LtAsymm lt) (hT : LtGeTrans lt) (fuel : Nat)
    (IH : ∀ (f : Nat → α) (r hi first : Nat), hi - r ≤ fuel →
      (∀ c, 0 < c → c < hi → r < (c - 1) / 2 →
        lt (f (first + (c - 1) / 2)) (f (first + c)) = false) →
      PermOnSet (subtreeSet r hi first) f (siftDownF lt fuel f r hi first) ∧
      (∀ c, 0 < c → c < hi → r ≤ (c - 1) / 2 →
        lt (siftDownF lt fuel f r hi first (first + (c - 1) / 2))
          (siftDownF lt fuel f r hi first (first + c)) = false))
    (f : Nat → α) (r hi first C : Nat) (g : Nat → α)
    (hf : hi - r ≤ fuel + 1)
    (hexc : ∀ c, 0 < c → c < hi → r < (c - 1) / 2 →
      lt (f (first + (c - 1) / 2)) (f (first + c)) = false)
    (hch : 2 * r + 1 < hi)
    (hC1 : C = 2 * r + 1 ∨ C = 2 * r + 2)
    (hClt : C < hi)
    (hCmax : ∀ s, s = 2 * r + 1 ∨ s = 2 * r + 2 → s < hi →
      lt (f (first + C)) (f (first + s)) = false)
    (heq : g = if lt (f (first + r)) (f (first + C)) = false then f
      else siftDownF lt fuel (fswap f (first + r) (first + C)) C hi first) :
    PermOnSet (subtreeSet r hi first) f g ∧
    (∀ c, 0 < c → c < hi → r ≤ (c - 1) / 2 →
      lt (g (first + (c - 1) / 2)) (g (first + c)) = false) := by
  have hCb : 2 * r + 1 ≤ C ∧ C ≤ 2 * r + 2 := by
    rcases hC1 with h | h <;> omega
  have hdescC : isDesc r C := by
    refine isDesc_parent ?_
    have hCp : (C - 1) / 2 = r := by omega
    rw [hCp]
    exact isDesc_refl r
  by_cases htest : lt (f (first + r)) (f (first + C)) = false
  · rw [if_pos htest] at heq
    rw [heq]
    refine ⟨PermOnSet.refl _ f, ?_⟩
    intro c h1 h2 h3
    by_cases hpr : (c - 1) / 2 = r
    · have hcs : c = 2 * r + 1 ∨ c = 2 * r + 2 := by omega
      rw [hpr]
      exact hT _ _ _ htest (hCmax c hcs h2)
    · exact hexc c h1 h2 (by omega)
  · have htest' : lt (f (first + r)) (f (first + C)) = true := by
      rcases Bool.eq_false_or_eq_true (lt (f (first + r)) (f (first + C))) with h | h
      · exact h
      · exact absurd h htest
    rw [if_neg htest] at heq
    subst heq
    set f1 := fswap f (first + r) (first + C) with hf1
    have hf1r : f1 (first + r) = f (first + C) := fswap_left f _ _
    have hf1C : f1 (first + C) = f (first + r) := fswap_right f _ _
    have hf1o : ∀ x, x ≠ first + r → x ≠ first + C → f1 x = f x := by
      intro x h1 h2
      exact fswap_other f h1 h2
    have hexc1 : ∀ c, 0 < c → c < hi → C < (c - 1) / 2 →
        lt (f1 (first + (c - 1) / 2)) (f1 (first + c)) = false := by
      intro c h1 h2 h3
      rw [hf1o _ (by omega) (by omega), hf1o _ (by omega) (by omega)]
      exact hexc c h1 h2 (by omega)
    obtain ⟨ihperm, ihpairs⟩ := IH f1 C hi first (by omega) hexc1
    set G := siftDownF lt fuel f1 C hi first with hGdef
    have hsub : subtreeSet C hi first ⊆ subtreeSet r hi first := by
      rintro x ⟨p, hp, hd, rfl⟩
      exact ⟨p, hp, isDesc_trans hdescC hd, rfl⟩
    constructor
    · refine PermOnSet.trans ?_ (PermOnSet.mono hsub ihperm)
      rw [hf1]
      refine PermOnSet.fswap f ?_ ?_
      · exact mem_subtreeSet.mpr ⟨by omega, isDesc_refl r⟩
      · exact mem_subtreeSet.mpr ⟨hClt, hdescC⟩
    · intro c h1 h2 h3
      by_cases hpr : (c - 1) / 2 = r
      · have hcs : c = 2 * r + 1 ∨ c = 2 * r + 2 := by omega
        have hrnd : ¬ isDesc C r := by
          intro hd
          have := isDesc_le hd
          omega
        have hGr : G (first + r) = f1 (first + r) := by
          refine ihperm.eq_outside ?_
          intro hm
          exact hrnd (mem_subtreeSet.mp hm).2
        by_cases hcC : c = C
        · rw [hpr, hGr, hf1r, hcC]
          have hbound : ∀ x ∈ subtreeSet C hi first, lt (f (first + C)) (f1 x) = false := by
            rintro x ⟨q, hq, hd, rfl⟩
            by_cases hqC : q = C
            · rw [hqC, hf1C]
              exact hA _ _ htest'
            · have hqgt : C < q := by
                have := isDesc_le hd
                omega
              rw [hf1o _ (by omega) (by omega)]
              refine desc_dominates hA hT f C hi first ?_ q hq hd
              intro c' hc1 hc2 hd'
              have := isDesc_le hd'
              exact hexc c' hc1 hc2 (by omega)
          have htr := ihperm.transport (fun y => lt (f (first + C)) y = false) hbound
          exact htr (first + C) (mem_subtreeSet.mpr ⟨hClt, isDesc_refl C⟩)
        · have hcnd : ¬ isDesc C c := by
            intro hd
            rcases isDesc_cases hd with h | h
            · exact hcC h
            · rw [hpr] at h
              have := isDesc_le h
              omega
          have hGc : G (first + c) = f1 (first + c) := by
            refine ihperm.eq_outside ?_
            intro hm
            exact hcnd (mem_subtreeSet.mp hm).2
          have hf1c : f1 (first + c) = f (first + c) := hf1o _ (by omega) (by omega)
          rw [hpr, hGr, hf1r, hGc, hf1c]
          exact hCmax c hcs h2
      · by_cases hpd : isDesc C ((c - 1) / 2)
        · have := isDesc_le hpd
          exact ihpairs c h1 h2 (by omega)
        · have hpC : (c - 1) / 2 ≠ C := by
            intro h
            rw [← h] at hpd
            exact hpd (isDesc_refl _)
          have hcC2 : c ≠ C := by
            intro h
            exact hpr (by omega)
          have hcnd : ¬ isDesc C c := by
            intro hd
            rcases isDesc_cases hd with h | h
            · exact hcC2 h
            · exact hpd h
          have hGp : G (first + (c - 1) / 2) = f (first + (c - 1) / 2) := by
            rw [ihperm.eq_outside ?_, hf1o _ (by omega) (by omega)]
            intro hm
            exact hpd (mem_subtreeSet.mp hm).2
          have hGc : G (first + c) = f (first + c) := by
            rw [ihperm.eq_outside ?_, hf1o _ (by omega) (by omega)]
            intro hm
            exact hcnd (mem_subtreeSet.mp hm).2
          rw [hGp, hGc]
          exact hexc c h1 h2 (by omega)

theorem siftDownF_spec (hA : LtAsymm lt) (hT : LtGeTrans lt) :
    ∀ (fuel : Nat) (f : Nat → α) (r hi first : Nat), hi - r ≤ fuel →
    (∀ c, 0 < c → c < hi → r < (c - 1) / 2 →
      lt (f (first + (c - 1) / 2)) (f (first + c)) = false) →
    PermOnSet (subtreeSet r hi first) f (siftDownF lt fuel f r hi first) ∧
    (∀ c, 0 < c → c < hi → r ≤ (c - 1) / 2 →
      lt (siftDownF lt fuel f r hi first (first + (c - 1) / 2))
        (siftDownF lt fuel f r hi first (first + c)) = false) := by
  intro fuel
  induction fuel with
  | zero =>
    intro f r hi first hf hexc
    rw [siftDownF]
    refine ⟨PermOnSet.refl _ f, ?_⟩
    intro c h1 h2 h3
    omega
  | succ fuel ih =>
    intro f r hi first hf hexc
    by_cases hch : hi ≤ 2 * r + 1
    · have heq : siftDownF lt (fuel + 1) f r hi first = f := by
        simp only [siftDownF]
        rw [if_pos hch]
      rw [heq]
      refine ⟨PermOnSet.refl _ f, ?_⟩
      intro c h1 h2 h3
      by_cases hpr : (c - 1) / 2 = r
      · omega
      · exact hexc c h1 h2 (by omega)
    · by_cases hcc : 2 * r + 1 + 1 < hi ∧
          lt (f (first + (2 * r + 1))) (f (first + (2 * r + 1) + 1)) = true
      · have heq : siftDownF lt (fuel + 1) f r hi first =
            if lt (f (first + r)) (f (first + (2 * r + 1 + 1))) = false then f
            else siftDownF lt fuel (fswap f (first + r) (first + (2 * r + 1 + 1)))
              (2 * r + 1 + 1) hi first := by
          simp only [siftDownF]
          rw [if_neg hch, if_pos hcc]
        refine siftDown_step hA hT fuel ih f r hi first (2 * r + 1 + 1) _ hf hexc
          (by omega) (by omega) (by omega) ?_ heq
        intro s hs hslt
        rcases hs with h | h
        · rw [h]
          have hx : first + (2 * r + 1) + 1 = first + (2 * r + 1 + 1) := by omega
          rw [← hx]
          exact hA _ _ hcc.2
        · have hx : 2 * r + 1 + 1 = s := by omega
          rw [hx]
          exact hA.irrefl _
      · have heq : siftDownF lt (fuel + 1) f r hi first =
            if lt (f (first + r)) (f (first + (2 * r + 1))) = false then f
            else siftDownF lt fuel (fswap f (first + r) (first + (2 * r + 1)))
              (2 * r + 1) hi first := by
          simp only [siftDownF]
          rw [if_neg hch, if_neg hcc]
        refine siftDown_step hA hT fuel ih f r hi first (2 * r + 1) _ hf hexc
          (by omega) (by omega) (by omega) ?_ heq
        intro s hs hslt
        rcases hs with h | h
        · rw [h]
          exact hA.irrefl _
        · have hs2 : lt (f (first + (2 * r + 1))) (f (first + (2 * r + 1) + 1)) = false := by
            rcases Bool.eq_false_or_eq_true
                (lt (f (first + (2 * r + 1))) (f (first + (2 * r + 1) + 1))) with hb | hb
            · exact absurd ⟨by omega, hb⟩ hcc
            · exact hb
          have hx : first + (2 * r + 1) + 1 = first + s := by omega
          rw [← hx]
          exact hs2

theorem siftDownF_hi_le (fuel : Nat) (f : Nat → α) (r hi first : Nat) (h : hi ≤ 2 * r + 1) :
    siftDownF lt fuel f r hi first = f := by
  cases fuel with
  | zero => rw [siftDownF]
  | succ fuel =>
    simp only [siftDownF]
    rw [if_pos h]

theorem heapBuild_spec (hA : LtAsymm lt) (hT : LtGeTrans lt) (n first : Nat) :
    ∀ (i : Nat) (f : Nat → α),
    (∀ c, 0 < c → c < n → i ≤ (c - 1) / 2 →
      lt (f (first + (c - 1) / 2)) (f (first + c)) = false) →
    (∀ c, 0 < c → c < n →
      lt ((((List.range i).reverse).foldl (fun g j => siftDownF lt n g j n first) f)
          (first + (c - 1) / 2))
        ((((List.range i).reverse).foldl (fun g j => siftDownF lt n g j n first) f)
          (first + c)) = false) ∧
    PermOnSet (Set.Ico first (first + n)) f
      (((List.range i).reverse).foldl (fun g j => siftDownF lt n g j n first) f) := by
  intro i
  induction i with
  | zero =>
    intro f hInv
    simp only [List.range_zero, List.reverse_nil, List.foldl_nil]
    exact ⟨fun c h1 h2 => hInv c h1 h2 (by omega), PermOnSet.refl _ f⟩
  | succ i ih =>
    intro f hInv
    simp only [List.range_succ, List.reverse_append, List.reverse_cons, List.reverse_nil,
      List.nil_append, List.singleton_append, List.foldl_cons]
    obtain ⟨hp, hpairs⟩ := siftDownF_spec hA hT n f i n first (by omega)
      (fun c h1 h2 h3 => hInv c h1 h2 (by omega))
    obtain ⟨ihpairs, ihperm⟩ := ih (siftDownF lt n f i n first)
      (fun c h1 h2 h3 => hpairs c h1 h2 h3)
    refine ⟨ihpairs, ?_⟩
    exact PermOnSet.trans (PermOnSet.mono (subtreeSet_subset_Ico i n first) hp) ihperm

theorem heapPop_spec (hA : LtAsymm lt) (hT : LtGeTrans lt) (n first : Nat) :
    ∀ (i : Nat) (g : Nat → α), i < n →
    (∀ c, 0 < c → c < i + 1 →
      lt (g (first + (c - 1) / 2)) (g (first + c)) = false) →
    (∀ j, i + 1 ≤ j → j < n → ∀ k, k < j →
      lt (g (first + j)) (g (first + k)) = false) →
    (∀ j, j < n → ∀ k, k < j →
      lt ((((List.range (i + 1)).reverse).foldl
          (fun h m => siftDownF lt n (fswap h first (first + m)) 0 m first) g) (first + j))
        ((((List.range (i + 1)).reverse).foldl
          (fun h m => siftDownF lt n (fswap h first (first + m)) 0 m first) g) (first + k))
        = false) ∧
    PermOnSet (Set.Ico first (first + n)) g
      (((List.range (i + 1)).reverse).foldl
        (fun h m => siftDownF lt n (fswap h first (first + m)) 0 m first) g) := by
  intro i
  induction i with
  | zero =>
    intro g hn hheap htail
    simp only [List.range_succ, List.range_zero, List.reverse_append, List.reverse_cons,
      List.reverse_nil, List.nil_append, List.singleton_append, List.foldl_cons,
      List.foldl_nil]
    have e1 : fswap g first (first + 0) = g := by
      rw [Nat.add_zero]
      exact fswap_self g first
    rw [e1, siftDownF_hi_le n g 0 0 first (by omega)]
    refine ⟨?_, PermOnSet.refl _ g⟩
    intro j hj k hk
    exact htail j (by omega) hj k hk
  | succ i ih =>
    intro g hn hheap htail
    have hsplit : (List.range (i + 1 + 1)).reverse = (i + 1) :: (List.range (i + 1)).reverse := by
      rw [List.range_succ, List.reverse_append, List.reverse_cons, List.reverse_nil,
        List.nil_append, List.singleton_append]
    rw [hsplit]
    simp only [List.foldl_cons]
    set g1 := fswap g first (first + (i + 1)) with hg1
    have hg1hi : g1 (first + (i + 1)) = g first := fswap_right g _ _
    have hg1o : ∀ x, x ≠ first → x ≠ first + (i + 1) → g1 x = g x := by
      intro x h1 h2
      exact fswap_other g h1 h2
    have hexc1 : ∀ c, 0 < c → c < i + 1 → 0 < (c - 1) / 2 →
        lt (g1 (first + (c - 1) / 2)) (g1 (first + c)) = false := by
      intro c h1 h2 h3
      rw [hg1o _ (by omega) (by omega), hg1o _ (by omega) (by omega)]
      exact hheap c h1 (by omega)
    obtain ⟨hp2, hpairs2⟩ := siftDownF_spec hA hT n g1 0 (i + 1) first (by omega) hexc1
    set g2 := siftDownF lt n g1 0 (i + 1) first with hg2
    have hg2out : ∀ j, i + 1 ≤ j → g2 (first + j) = g1 (first + j) := by
      intro j hj
      refine hp2.eq_outside ?_
      intro hm
      have := (mem_subtreeSet.mp hm).1
      omega
    have hperm_small : PermOnSet (Set.Ico first (first + (i + 2))) g g2 := by
      refine PermOnSet.trans ?_ (PermOnSet.mono ?_ hp2)
      · rw [hg1]
        refine PermOnSet.fswap g ?_ ?_
        · simp only [Set.mem_Ico]
          omega
        · simp only [Set.mem_Ico]
          omega
      · refine subset_trans (subtreeSet_subset_Ico 0 (i + 1) first) ?_
        exact Set.Ico_subset_Ico (by omega) (by omega)
    have hroot : ∀ q, q < i + 2 → lt (g first) (g (first + q)) = false := by
      have h0 := heap_root_max hA hT g (i + 2) first hheap
      intro q hq
      have := h0 q hq
      rw [Nat.add_zero] at this
      exact this
    have htail2 : ∀ j, i + 1 ≤ j → j < n → ∀ k, k < j →
        lt (g2 (first + j)) (g2 (first + k)) = false := by
      intro j hj1 hj2 k hk
      by_cases hjeq : j = i + 1
      · have hvj : g2 (first + j) = g first := by
          rw [hg2out j hj1, hjeq, hg1hi]
        have hb : ∀ x ∈ Set.Ico first (first + (i + 2)), lt (g first) (g x) = false := by
          intro x hx
          simp only [Set.mem_Ico] at hx
          have hx2 : x = first + (x - first) := by omega
          rw [hx2]
          exact hroot (x - first) (by omega)
        have htr := hperm_small.transport (fun y => lt (g first) y = false) hb
        have hres := htr (first + k) (by simp only [Set.mem_Ico]; omega)
        rw [hvj]
        exact hres
      · have hvj : g2 (first + j) = g (first + j) := by
          rw [hg2out j hj1]
          exact hg1o _ (by omega) (by omega)
        by_cases hki : k < i + 2
        · have hb : ∀ x ∈ Set.Ico first (first + (i + 2)),
              lt (g (first + j)) (g x) = false := by
            intro x hx
            simp only [Set.mem_Ico] at hx
            have hx2 : x = first + (x - first) := by omega
            rw [hx2]
            exact htail j (by omega) hj2 (x - first) (by omega)
          have htr := hperm_small.transport (fun y => lt (g (first + j)) y = false) hb
          have hres := htr (first + k) (by simp only [Set.mem_Ico]; omega)
          rw [hvj]
          exact hres
        · have hvk : g2 (first + k) = g (first + k) := by
            rw [hg2out k (by omega)]
            exact hg1o _ (by omega) (by omega)
          rw [hvj, hvk]
          exact htail j (by omega) hj2 k hk
    obtain ⟨ihpairs, ihperm⟩ := ih g2 (by omega)
      (fun c h1 h2 => hpairs2 c h1 h2 (by omega)) htail2
    refine ⟨ihpairs, ?_⟩
    refine PermOnSet.trans ?_ ihperm
    refine PermOnSet.trans ?_ (PermOnSet.mono ?_ hp2)
    · rw [hg1]
      refine PermOnSet.fswap g ?_ ?_
      · simp only [Set.mem_Ico]
        omega
      · simp only [Set.mem_Ico]
        omega
    · refine subset_trans (subtreeSet_subset_Ico 0 (i + 1) first) ?_
      exact Set.Ico_subset_Ico (by omega) (by omega)

theorem heapSortGo_spec (hA : LtAsymm lt) (hT : LtGeTrans lt) (f : Nat → α) (a b : Nat) :
    SortedWin lt a b (heapSortGo lt f a b) ∧
    PermOnSet (Set.Ico a b) f (heapSortGo lt f a b) := by
  by_cases hab : a < b
  · obtain ⟨hheapB, hpermB⟩ := heapBuild_spec hA hT (b - a) a ((b - a - 1) / 2 + 1) f
      (fun c h1 h2 h3 => absurd h2 (by omega))
    set built := ((List.range ((b - a - 1) / 2 + 1)).reverse).foldl
      (fun g j => siftDownF lt (b - a) g j (b - a) a) f with hbuilt
    have hi1 : b - a - 1 + 1 = b - a := by omega
    obtain ⟨hsorted, hpermP⟩ := heapPop_spec hA hT (b - a) a (b - a - 1) built (by omega)
      (fun c h1 h2 => hheapB c h1 (by omega))
      (fun j h1 h2 => absurd h2 (by omega))
    rw [hi1] at hsorted hpermP
    have heq : heapSortGo lt f a b = ((List.range (b - a)).reverse).foldl
        (fun h m => siftDownF lt (b - a) (fswap h a (a + m)) 0 m a) built := by
      simp only [heapSortGo]
    constructor
    · intro i j hai hij hjb
      rw [heq]
      have hv := hsorted (j - a) (by omega) (i - a) (by omega)
      have hxj : a + (j - a) = j := by omega
      have hxi : a + (i - a) = i := by omega
      rw [hxj, hxi] at hv
      exact hv
    · rw [heq]
      have hIco : Set.Ico a (a + (b - a)) = Set.Ico a b := by
        rw [show a + (b - a) = b by omega]
      rw [hIco] at hpermB hpermP
      exact PermOnSet.trans hpermB hpermP
  · have hn0 : b - a = 0 := by omega
    have heq : heapSortGo lt f a b = f := by
      simp only [heapSortGo, hn0]
      have h01 : ((0 : Nat) - 1) / 2 + 1 = 1 := by norm_num
      rw [h01]
      have hr1 : (List.range 1).reverse = [0] := by decide
      rw [hr1]
      simp only [List.range_zero, List.reverse_nil, List.foldl_nil, List.foldl_cons]
      rw [siftDownF_hi_le 0 f 0 0 a (by omega)]
    rw [heq]
    constructor
    · intro i j h1 h2 h3
      exact absurd h3 (by omega)
    · exact PermOnSet.refl _ f

theorem smallSort_spec (hA : LtAsymm lt) (hT : LtGeTrans lt) (f : Nat → α) (a b : Nat) :
    SortedWin lt a b (insertionSortGo lt (shellPassGo lt f a b) a b) ∧
    PermOnSet (Set.Ico a b) f (insertionSortGo lt (shellPassGo lt f a b) a b) := by
  obtain ⟨hs, hp⟩ := insertionSortGo_spec hA hT (shellPassGo lt f a b) a b
  exact ⟨hs, PermOnSet.trans (shellPassGo_perm lt f a b) hp⟩

theorem quick_combine (hA : LtAsymm lt) (hT : LtGeTrans lt) (h : Nat → α)
    (a b mlo mhi : Nat)
    (hla : a ≤ mlo) (hlm : mlo < mhi) (hmb : mhi ≤ b)
    (h1 : SortedWin lt a mlo h) (h2 : SortedWin lt mhi b h)
    (hL : ∀ k, a ≤ k → k < mlo → lt (h mlo) (h k) = false)
    (hM : ∀ k, mlo ≤ k → k < mhi → lt (h mlo) (h k) = false ∧ lt (h k) (h mlo) = false)
    (hR : ∀ k, mhi ≤ k → k < b → lt (h k) (h mlo) = false) :
    SortedWin lt a b h := by
  intro i j hai hij hjb
  by_cases hjm : j < mlo
  · exact h1 i j hai hij hjm
  · by_cases hjh : j < mhi
    · have hj1 : lt (h j) (h mlo) = false := (hM j (by omega) hjh).2
      have hi1 : lt (h mlo) (h i) = false := by
        by_cases him : i < mlo
        · exact hL i hai him
        · exact (hM i (by omega) (by omega)).1
      exact hT _ _ _ hj1 hi1
    · by_cases hih : mhi ≤ i
      · exact h2 i j hih hij hjb
      · have hj1 : lt (h j) (h mlo) = false := hR j (by omega) hjb
        have hi1 : lt (h mlo) (h i) = false := by
          by_cases him : i < mlo
          · exact hL i hai him
          · exact (hM i (by omega) (by omega)).1
        exact hT _ _ _ hj1 hi1

theorem quick_sides (hA : LtAsymm lt) (hT : LtGeTrans lt) (g g1 h : Nat → α)
    (a b mlo mhi : Nat)
    (hla : a ≤ mlo) (hlm : mlo < mhi) (hmb : mhi ≤ b)
    (hL : ∀ k, a ≤ k → k < mlo → lt (g mlo) (g k) = false)
    (hM : ∀ k, mlo ≤ k → k < mhi → lt (g mlo) (g k) = false ∧ lt (g k) (g mlo) = false)
    (hR : ∀ k, mhi ≤ k → k < b → lt (g k) (g mlo) = false)
    (hsides : (SortedWin lt a mlo g1 ∧ PermOnSet (Set.Ico a mlo) g g1 ∧
        SortedWin lt mhi b h ∧ PermOnSet (Set.Ico mhi b) g1 h) ∨
      (SortedWin lt mhi b g1 ∧ PermOnSet (Set.Ico mhi b) g g1 ∧
        SortedWin lt a mlo h ∧ PermOnSet (Set.Ico a mlo) g1 h)) :
    SortedWin lt a b h ∧ PermOnSet (Set.Ico a b) g h := by
  rcases hsides with ⟨hs1, hp1, hs2, hp2⟩ | ⟨hs1, hp1, hs2, hp2⟩
  · have hmv1 : g1 mlo = g mlo := hp1.eq_outside (by simp [Set.mem_Ico])
    have hmv2 : h mlo = g1 mlo := hp2.eq_outside (by simp [Set.mem_Ico]; omega)
    have hmv : h mlo = g mlo := by rw [hmv2, hmv1]
    have hleft : ∀ k, k < mhi → h k = g1 k := by
      intro k hk
      exact hp2.eq_outside (by simp [Set.mem_Ico]; omega)
    have hmid : ∀ k, mlo ≤ k → k < mhi → h k = g k := by
      intro k hk1 hk2
      rw [hleft k hk2]
      exact hp1.eq_outside (by simp [Set.mem_Ico]; omega)
    have hs1' : SortedWin lt a mlo h := by
      intro i j hai hij hjm
      rw [hleft i (by omega), hleft j (by omega)]
      exact hs1 i j hai hij hjm
    have hL' : ∀ k, a ≤ k → k < mlo → lt (h mlo) (h k) = false := by
      intro k h1 h2
      rw [hmv, hleft k (by omega)]
      have hb : ∀ x ∈ Set.Ico a mlo, lt (g mlo) (g x) = false := by
        intro x hx
        simp only [Set.mem_Ico] at hx
        exact hL x hx.1 hx.2
      exact hp1.transport (fun y => lt (g mlo) y = false) hb k (by simp [Set.mem_Ico]; omega)
    have hM' : ∀ k, mlo ≤ k → k < mhi →
        lt (h mlo) (h k) = false ∧ lt (h k) (h mlo) = false := by
      intro k h1 h2
      rw [hmv, hmid k h1 h2]
      exact hM k h1 h2
    have hR' : ∀ k, mhi ≤ k → k < b → lt (h k) (h mlo) = false := by
      intro k h1 h2
      rw [hmv]
      have hb : ∀ x ∈ Set.Ico mhi b, lt (g1 x) (g mlo) = false := by
        intro x hx
        simp only [Set.mem_Ico] at hx
        rw [hp1.eq_outside (by simp [Set.mem_Ico]; omega)]
        exact hR x hx.1 hx.2
      exact hp2.transport (fun y => lt y (g mlo) = false) hb k (by simp [Set.mem_Ico]; omega)
    refine ⟨quick_combine hA hT h a b mlo mhi hla hlm hmb hs1' hs2 hL' hM' hR', ?_⟩
    refine PermOnSet.trans (PermOnSet.mono ?_ hp1) (PermOnSet.mono ?_ hp2)
    · exact Set.Ico_subset_Ico (by omega) (by omega)
    · exact Set.Ico_subset_Ico (by omega) (by omega)
  · have hmv1 : g1 mlo = g mlo := hp1.eq_outside (by simp [Set.mem_Ico]; omega)
    have hmv2 : h mlo = g1 mlo := hp2.eq_outside (by simp [Set.mem_Ico])
    have hmv : h mlo = g mlo := by rw [hmv2, hmv1]
    have hright : ∀ k, mlo ≤ k → h k = g1 k := by
      intro k hk
      exact hp2.eq_outside (by simp [Set.mem_Ico]; omega)
    have hmid : ∀ k, mlo ≤ k → k < mhi → h k = g k := by
      intro k hk1 hk2
      rw [hright k hk1]
      exact hp1.eq_outside (by simp [Set.mem_Ico]; omega)
    have hs2' : SortedWin lt mhi b h := by
      intro i j hai hij hjm
      rw [hright i (by omega), hright j (by omega)]
      exact hs1 i j hai hij hjm
    have hL' : ∀ k, a ≤ k → k < mlo → lt (h mlo) (h k) = false := by
      intro k h1 h2
      rw [hmv]
      have hb : ∀ x ∈ Set.Ico a mlo, lt (g mlo) (g1 x) = false := by
        intro x hx
        simp only [Set.mem_Ico] at hx
        rw [hp1.eq_outside (by simp [Set.mem_Ico]; omega)]
        exact hL x hx.1 hx.2
      exact hp2.transport (fun y => lt (g mlo) y = false) hb k (by simp [Set.mem_Ico]; omega)
    have hM' : ∀ k, mlo ≤ k → k < mhi →
        lt (h mlo) (h k) = false ∧ lt (h k) (h mlo) = false := by
      intro k h1 h2
      rw [hmv, hmid k h1 h2]
      exact hM k h1 h2
    have hR' : ∀ k, mhi ≤ k → k < b → lt (h k) (h mlo) = false := by
      intro k h1 h2
      rw [hmv, hright k (by omega)]
      have hb : ∀ x ∈ Set.Ico mhi b, lt (g x) (g mlo) = false := by
        intro x hx
        simp only [Set.mem_Ico] at hx
        exact hR x hx.1 hx.2
      exact hp1.transport (fun y => lt y (g mlo) = false) hb k (by simp [Set.mem_Ico]; omega)
    refine ⟨quick_combine hA hT h a b mlo mhi hla hlm hmb hs2 hs2' hL' hM' hR', ?_⟩
    refine PermOnSet.trans (PermOnSet.mono ?_ hp1) (PermOnSet.mono ?_ hp2)
    · exact Set.Ico_subset_Ico (by omega) (by omega)
    · exact Set.Ico_subset_Ico (by omega) (by omega)

theorem quickSortF_spec (hA : LtAsymm lt) (hT : LtGeTrans lt) :
    ∀ (fuel : Nat) (f : Nat → α) (a b maxd : Nat), (b - a > 12 → b - a ≤ fuel) →
    SortedWin lt a b (quickSortF lt fuel f a b maxd) ∧
    PermOnSet (Set.Ico a b) f (quickSortF lt fuel f a b maxd) := by
  intro fuel
  induction fuel with
  | zero =>
    intro f a b maxd hfuel
    simp only [quickSortF]
    by_cases h13 : b - a > 12
    · exact absurd (hfuel h13) (by omega)
    · rw [if_neg h13]
      by_cases h1 : b - a > 1
      · rw [if_pos h1]
        exact smallSort_spec hA hT f a b
      · rw [if_neg h1]
        refine ⟨?_, PermOnSet.refl _ f⟩
        intro i j hi hij hj
        exact absurd hj (by omega)
  | succ fuel ih =>
    intro f a b maxd hfuel
    simp only [quickSortF]
    by_cases h13 : b - a > 12
    · rw [if_pos h13]
      have hba := hfuel h13
      by_cases hmd : maxd = 0
      · rw [if_pos hmd]
        exact heapSortGo_spec hA hT f a b
      · rw [if_neg hmd]
        obtain ⟨g, mlo, mhi, hgeq, hperm, hla, hlm, hmb, hL, hM, hR⟩ :=
          doPivotGo_spec hA hT f a b h13
        have he1 : (doPivotGo lt f a b).1 = g := by rw [hgeq]
        have he2 : (doPivotGo lt f a b).2.1 = mlo := by rw [hgeq]
        have he3 : (doPivotGo lt f a b).2.2 = mhi := by rw [hgeq]
        rw [he1, he2, he3]
        by_cases hcase : mlo - a < b - mhi
        · rw [if_pos hcase]
          obtain ⟨hs1, hp1⟩ := ih g a mlo (maxd - 1) (by omega)
          obtain ⟨hs2, hp2⟩ := ih (quickSortF lt fuel g a mlo (maxd - 1)) mhi b (maxd - 1)
            (by omega)
          obtain ⟨hsAll, hpAll⟩ := quick_sides hA hT g
            (quickSortF lt fuel g a mlo (maxd - 1))
            (quickSortF lt fuel (quickSortF lt fuel g a mlo (maxd - 1)) mhi b (maxd - 1))
            a b mlo mhi hla hlm hmb hL hM hR (Or.inl ⟨hs1, hp1, hs2, hp2⟩)
          exact ⟨hsAll, PermOnSet.trans hperm hpAll⟩
        · rw [if_neg hcase]
          obtain ⟨hs1, hp1⟩ := ih g mhi b (maxd - 1) (by omega)
          obtain ⟨hs2, hp2⟩ := ih (quickSortF lt fuel g mhi b (maxd - 1)) a mlo (maxd - 1)
            (by omega)
          obtain ⟨hsAll, hpAll⟩ := quick_sides hA hT g
            (quickSortF lt fuel g mhi b (maxd - 1))
            (quickSortF lt fuel (quickSortF lt fuel g mhi b (maxd - 1)) a mlo (maxd - 1))
            a b mlo mhi hla hlm hmb hL hM hR (Or.inr ⟨hs1, hp1, hs2, hp2⟩)
          exact ⟨hsAll, PermOnSet.trans hperm hpAll⟩
    · rw [if_neg h13]
      by_cases h1 : b - a > 1
      · rw [if_pos h1]
        exact smallSort_spec hA hT f a b
      · rw [if_neg h1]
        refine ⟨?_, PermOnSet.refl _ f⟩
        intro i j hi hij hj
        exact absurd hj (by omega)

theorem sortSliceGo_spec [Inhabited α] (hA : LtAsymm lt) (hT : LtGeTrans lt) (l : List α) :
    List.Pairwise (fun x y => lt y x = false) (sortSliceGo lt l) ∧
    (sortSliceGo lt l).Perm l := by
  obtain ⟨hs, hp⟩ := quickSortF_spec hA hT l.length (fun i => l.getD i default)
    0 l.length (maxDepthGo l.length) (by omega)
  constructor
  · exact sortedWin_pairwise hs
  · have hlp := PermOnSet.list_perm hp
    rw [map_range_getD] at hlp
    exact hlp

/-- C1: for every sequence R of item requests, sortRequests returns a
sequence sorted ascending by the Key field (no later element's key is
strictly below an earlier one's) that is a permutation of R, and the callers
view of R itself is unchanged by the call: the Go code copies the slice into
a freshly allocated backing array (`append` to an empty slice literal)
before `sort.Slice` sorts that copy in place, modelled by the pair
`sortRequestsRun R = (R, sortRequests R)`. -/
theorem C1_sortRequests_sorted_perm_nondestructive {π : Type} (R : List (ItemRequest π)) :
    (sortRequestsRun R).1 = R ∧
    List.Pairwise (fun x y : ItemRequest π => goStrLt y.Key x.Key = false)
      (sortRequestsRun R).2 ∧
    ((sortRequestsRun R).2).Perm R := by
  obtain ⟨hs, hp⟩ := sortSliceGo_spec ltByKey_asymm ltByKey_ge_trans (List.append [] R)
  refine ⟨rfl, hs, ?_⟩
  have hnil : List.append ([] : List (ItemRequest π)) R = R := rfl
  rw [hnil] at hp
  exact hp

set_option maxRecDepth 1000000 in
set_option maxHeartbeats 8000000 in
/-- C2 counterexample: the batch `exReqs` holds the requests with IDs p3 and
p7 (input positions 3 and 7) with the equal key "b", p3 first; in the output
of sortRequests the two appear with p7 first, so ties are NOT broken by
input order: `sort.Slice` is not a stable sort. -/
theorem C2_sortRequests_not_stable :
    exReqs.filter (fun r => decide (r.Key = "b".data)) =
      [mkReq "p3" "b", mkReq "p7" "b"] ∧
    (sortRequests exReqs).filter (fun r => decide (r.Key = "b".data)) =
      [mkReq "p7" "b", mkReq "p3" "b"] := by
  decide

/-- C2 (amended): on an input containing two requests with equal keys,
sortRequests still returns a sequence sorted ascending by key and a
permutation of the input (no crash, every element kept); the relative order
of the equal-key requests is simply not specified. -/
theorem C2_sortRequests_ties_sorted_perm {π : Type} (R : List (ItemRequest π))
    (hties : ∃ i j, i < j ∧ j < R.length ∧
      (R.getD i default).Key = (R.getD j default).Key) :
    List.Pairwise (fun x y : ItemRequest π => goStrLt y.Key x.Key = false)
      (sortRequests R) ∧
    (sortRequests R).Perm R := by
  obtain ⟨hs, hp⟩ := sortSliceGo_spec ltByKey_asymm ltByKey_ge_trans (List.append [] R)
  refine ⟨hs, ?_⟩
  have hnil : List.append ([] : List (ItemRequest π)) R = R := rfl
  rw [hnil] at hp
  exact hp

set_option maxRecDepth 1000000 in
set_option maxHeartbeats 8000000 in
/-- Witness for the amended C2 at the concrete batch `exReqs`, whose
positions 3 and 7 carry the equal key "b". -/
theorem C2_sortRequests_ties_sorted_perm_witness :
    (∃ i j, i < j ∧ j < exReqs.length ∧
      (exReqs.getD i default).Key = (exReqs.getD j default).Key) ∧
    (List.Pairwise (fun x y : ItemRequest Unit => goStrLt y.Key x.Key = false)
        (sortRequests exReqs) ∧
      (sortRequests exReqs).Perm exReqs) :=
  ⟨⟨3, 7, by decide⟩, C2_sortRequests_ties_sorted_perm exReqs ⟨3, 7, by decide⟩⟩
